import Mathlib

/-!
Verification of the MCP secret-extraction module (`src/sync/mcp-secrets.ts`).

The module operates on JSON-compatible configuration documents.  We embed
JSON values as the inductive type `JVal`; plain objects are association
lists in insertion order, matching JavaScript object entry semantics for
the string-keyed objects this module manipulates.
-/

set_option maxRecDepth 4096

namespace McpSync

/-- JSON-compatible values.  Plain objects (`obj`) are association lists of
string keys in insertion order.  `num` is modelled as `Int`: the module
never inspects numbers, it only passes them through. -/
inductive JVal where
  | str : String → JVal
  | num : Int → JVal
  | bool : Bool → JVal
  | null : JVal
  | arr : List JVal → JVal
  | obj : List (String × JVal) → JVal

/-- A plain JavaScript object: string keys to JSON values, insertion order. -/
abbrev Obj := List (String × JVal)

/-- First value stored under key `k` (JavaScript property read). -/
def lookupKey : Obj → String → Option JVal
  | [], _ => none
  | (k1, v) :: rest, k => if k1 = k then some v else lookupKey rest k

/-- Whether the object has an own property named `k`. -/
def containsKey : Obj → String → Bool
  | [], _ => false
  | (k1, _) :: rest, k => k1 == k || containsKey rest k

/-- JavaScript property write `o[k] = v`: replaces the value in place if the
key is present, otherwise appends the new entry. -/
def setKey : Obj → String → JVal → Obj
  | [], k, v => [(k, v)]
  | (k1, w) :: rest, k, v =>
    if k1 = k then (k, v) :: rest else (k1, w) :: setKey rest k v

/-- JavaScript `delete o[k]`. -/
def removeKey : Obj → String → Obj
  | [], _ => []
  | (k1, w) :: rest, k => if k1 = k then rest else (k1, w) :: removeKey rest k

/-- `getPlainObject`: the payload when the value is a plain object. -/
def getPlainObject : JVal → Option Obj
  | JVal.obj o => some o
  | _ => none

/-! ### The placeholder pattern `/\x7benv:[^\x7d]+\x7d/i` -/

/-- After a literal `\x7benv:` the regex needs `[^\x7d]+\x7d`: at least one
character that is not a closing brace, followed eventually by one. -/
def envTailMatch : List Char → Bool
  | [] => false
  | c :: rest => c != '\x7d' && rest.contains '\x7d'

/-- Does the pattern `\x7benv:[^\x7d]+\x7d` (with `env` case-insensitive)
match at the start of the character list? -/
def envMatchHere : List Char → Bool
  | '\x7b' :: e :: n :: v :: ':' :: rest =>
    e.toLower == 'e' && n.toLower == 'n' && v.toLower == 'v' && envTailMatch rest
  | _ => false

/-- `ENV_PLACEHOLDER_PATTERN.test`: the pattern matches at some position. -/
def containsEnvPlaceholder : List Char → Bool
  | [] => false
  | c :: rest => envMatchHere (c :: rest) || containsEnvPlaceholder rest

/-- `isSecretString`: a non-empty string that does not already contain an
environment placeholder. -/
def isSecretString : JVal → Bool
  | JVal.str s => !s.isEmpty && !containsEnvPlaceholder s.data
  | _ => false

/-! ### Environment-variable name derivation -/

/-- Character class `[a-zA-Z0-9]` of the JavaScript regexes. -/
def isEnvAlnum (c : Char) : Bool :=
  ('a' ≤ c && c ≤ 'z') || ('A' ≤ c && c ≤ 'Z') || ('0' ≤ c && c ≤ '9')

/-- `.replace(/[^a-zA-Z0-9]+/g, '_')`: each maximal run of non-alphanumeric
characters collapses to a single `_`.  Written with one character of
lookahead so the recursion is structural: a non-alphanumeric character is
dropped while its run continues and becomes `_` where the run ends. -/
def collapseNonAlnum : List Char → List Char
  | [] => []
  | [c] => if isEnvAlnum c then [c] else ['_']
  | c :: d :: rest =>
    if isEnvAlnum c then c :: collapseNonAlnum (d :: rest)
    else if isEnvAlnum d then '_' :: collapseNonAlnum (d :: rest)
    else collapseNonAlnum (d :: rest)

/-- `.replace(/^_+|_+$/g, '')`: strip leading and trailing underscores. -/
def trimUnderscores (l : List Char) : List Char :=
  ((l.dropWhile (fun c => c = '_')).reverse.dropWhile (fun c => c = '_')).reverse

/-- JavaScript `String.prototype.trim` (whitespace at both ends). -/
def jsTrim (l : List Char) : List Char :=
  ((l.dropWhile Char.isWhitespace).reverse.dropWhile Char.isWhitespace).reverse

/-- `toEnvToken`: trim, collapse non-alphanumeric runs to underscores, strip
edge underscores, fall back when empty, else uppercase. -/
def toEnvToken (input fallback : String) : String :=
  let cleaned := trimUnderscores (collapseNonAlnum (jsTrim input.data))
  if cleaned.isEmpty then fallback else String.mk (cleaned.map Char.toUpper)

/-- `buildEnvVar`. -/
def buildEnvVar (serverName key : String) : String :=
  "OPENCODE_MCP_" ++ toEnvToken serverName "SERVER" ++ "_" ++ toEnvToken key "VALUE"

/-- The test `/^[A-Z0-9_]+$/.test headerName`. -/
def isUpperEnvChar (c : Char) : Bool :=
  ('A' ≤ c && c ≤ 'Z') || ('0' ≤ c && c ≤ '9') || c = '_'

/-- Whole-string match of `^[A-Z0-9_]+$`. -/
def matchesUpperEnvName (s : String) : Bool :=
  !s.isEmpty && s.data.all isUpperEnvChar

/-- `buildHeaderEnvVar`. -/
def buildHeaderEnvVar (serverName headerName : String) : String :=
  if matchesUpperEnvName headerName then headerName
  else buildEnvVar serverName headerName

/-! ### Placeholder construction -/

/-- The literal placeholder `\x7benv:NAME\x7d`. -/
def envPlaceholder (envVar : String) : String :=
  "\x7benv:" ++ envVar ++ "\x7d"

/-- ASCII-letter class `[A-Za-z]`. -/
def isAsciiLetter (c : Char) : Bool :=
  ('a' ≤ c && c ≤ 'z') || ('A' ≤ c && c ≤ 'Z')

/-- Scheme-token character class `[A-Za-z0-9+.-]`. -/
def isSchemeChar (c : Char) : Bool :=
  isAsciiLetter c || ('0' ≤ c && c ≤ '9') || c = '+' || c = '.' || c = '-'

/-- The JavaScript regex class `\s` (ECMAScript WhiteSpace and
LineTerminator): tab, LF, VT, FF, CR, space, NBSP, the Ogham space mark,
the U+2000..U+200A spaces, LS, PS, NNBSP, MMSP, the ideographic space and
the BOM. -/
def isJsWhitespace (c : Char) : Bool :=
  c = '\t' || c = '\n' || c = '\x0b' || c = '\x0c' || c = '\r' || c = ' ' ||
  c = '\u00A0' || c = '\u1680' || ('\u2000' ≤ c && c ≤ '\u200A') ||
  c = '\u2028' || c = '\u2029' || c = '\u202F' || c = '\u205F' ||
  c = '\u3000' || c = '\uFEFF'

/-- `value.match(/^([A-Za-z][A-Za-z0-9+.-]*)\s+/)`, returning the whole
match (`match[0]`), i.e. the scheme token together with the following run
of `\s` whitespace.  Since no scheme character is whitespace, the greedy
match never backtracks, so maximal munch is exact. -/
def schemeMatchFull (l : List Char) : Option (List Char) :=
  match l with
  | [] => none
  | c :: rest =>
    if isAsciiLetter c then
      let sch := rest.takeWhile isSchemeChar
      let after := rest.dropWhile isSchemeChar
      let ws := after.takeWhile isJsWhitespace
      if ws.isEmpty then none else some (c :: (sch ++ ws))
    else none

/-- ASCII lowering, as `headerName.toLowerCase()` behaves on the names the
comparison targets. -/
def lowerAscii (s : String) : String :=
  String.mk (s.data.map Char.toLower)

/-- `isAuthorizationHeader` (an empty name is falsy in the source guard). -/
def isAuthorizationHeader (headerName : String) : Bool :=
  if headerName.isEmpty then false
  else lowerAscii headerName = "authorization" ||
       lowerAscii headerName = "proxy-authorization"

/-- `buildHeaderPlaceholder`. -/
def buildHeaderPlaceholder (value envVar headerName : String) : String :=
  if !isAuthorizationHeader headerName then envPlaceholder envVar
  else
    match schemeMatchFull value.data with
    | some pre => String.mk pre ++ envPlaceholder envVar
    | none => envPlaceholder envVar

/-! ### `setNestedValue` -/

/-- The object stored at key `k`, or a fresh empty one (`setNestedValue`
replaces a missing or non-object intermediate with `\x7b\x7d`). -/
def innerOf (o : Obj) (k : String) : Obj :=
  match lookupKey o k with
  | some (JVal.obj i) => i
  | _ => []

/-- `setNestedValue target path value`.  The source is only ever called
with non-empty paths; an empty path leaves the object unchanged. -/
def setNested : Obj → List String → JVal → Obj
  | o, [], _ => o
  | o, [k], v => setKey o k v
  | o, k :: k2 :: rest, v => setKey o k (JVal.obj (setNested (innerOf o k) (k2 :: rest) v))

/-- Repeated `setNestedValue` calls, in call order. -/
def substPaths (o : Obj) (l : List (List String × JVal)) : Obj :=
  l.foldl (fun acc pv => setNested acc pv.1 pv.2) o

/-! ### `extractMcpSecrets` -/

/-- Sanitized value of one header entry: secrets are replaced by their
placeholder, everything else is left as is. -/
def sanitizeHeaderValue (serverName headerName : String) : JVal → JVal
  | JVal.str s =>
    if isSecretString (JVal.str s) then
      JVal.str (buildHeaderPlaceholder s (buildHeaderEnvVar serverName headerName) headerName)
    else JVal.str s
  | v => v

/-- The headers object after the header loop of `extractMcpSecrets`. -/
def sanitizeHeaders (serverName : String) (hs : Obj) : Obj :=
  hs.map (fun p => (p.1, sanitizeHeaderValue serverName p.1 p.2))

/-- The header loop of `extractMcpSecrets` on one server entry: sanitize
the headers object in place when there is one. -/
def sanitizeServerHeaders (serverName : String) (sc : Obj) : Obj :=
  match lookupKey sc "headers" with
  | some (JVal.obj hs) => setKey sc "headers" (JVal.obj (sanitizeHeaders serverName hs))
  | _ => sc

/-- The oauth step of `extractMcpSecrets` on one server entry: replace a
secret `clientSecret` with its placeholder. -/
def sanitizeOauth (serverName : String) (sc1 : Obj) : Obj :=
  match lookupKey sc1 "oauth" with
  | some (JVal.obj oa) =>
    match lookupKey oa "clientSecret" with
    | some cs =>
      if isSecretString cs then
        setKey sc1 "oauth" (JVal.obj (setKey oa "clientSecret"
          (JVal.str (envPlaceholder (buildEnvVar serverName "OAUTH_CLIENT_SECRET")))))
      else sc1
    | none => sc1
  | _ => sc1

/-- One server entry of the sanitized config: the header loop followed by
the oauth `clientSecret` replacement (the header step only touches the
`headers` key, so reading `oauth` afterwards matches the source order). -/
def sanitizeServer (serverName : String) (sc : Obj) : Obj :=
  sanitizeOauth serverName (sanitizeServerHeaders serverName sc)

/-- The `(path, original value)` pairs recorded by `setNestedValue` during
the header loop of one server, in loop order. -/
def headerSecretPaths (serverName : String) (sc : Obj) : List (List String × JVal) :=
  match lookupKey sc "headers" with
  | some (JVal.obj hs) =>
    hs.filterMap (fun p =>
      if isSecretString p.2 then some (["mcp", serverName, "headers", p.1], p.2) else none)
  | _ => []

/-- The `(path, original value)` pair recorded for a secret oauth client
secret, when there is one. -/
def oauthSecretPaths (serverName : String) (sc : Obj) : List (List String × JVal) :=
  match lookupKey sc "oauth" with
  | some (JVal.obj oa) =>
    match lookupKey oa "clientSecret" with
    | some cs =>
      if isSecretString cs then [(["mcp", serverName, "oauth", "clientSecret"], cs)] else []
    | none => []
  | _ => []

/-- The `(path, original value)` pairs recorded by `setNestedValue` for one
server, in loop order: secret headers first, then the oauth client secret. -/
def serverSecretPaths (serverName : String) (sc : Obj) : List (List String × JVal) :=
  headerSecretPaths serverName sc ++ oauthSecretPaths serverName sc

/-- Secret paths contributed by one `mcp` entry: only server objects
contribute. -/
def serverPathsValue (serverName : String) : JVal → List (List String × JVal)
  | JVal.obj sc => serverSecretPaths serverName sc
  | _ => []

/-- All `(path, original value)` pairs recorded over the whole document, in
loop order across servers. -/
def configSecretPaths (D : Obj) : List (List String × JVal) :=
  match lookupKey D "mcp" with
  | some (JVal.obj mcp) =>
    mcp.foldr (fun p acc => serverPathsValue p.1 p.2 ++ acc) []
  | _ => []

/-- Sanitization of one `mcp` entry value: server objects are sanitized,
anything else is skipped. -/
def sanitizeServerValue (serverName : String) : JVal → JVal
  | JVal.obj sc => JVal.obj (sanitizeServer serverName sc)
  | v => v

/-- The sanitized configuration (the mutated JSON clone of the input). -/
def sanitizeConfig (D : Obj) : Obj :=
  match lookupKey D "mcp" with
  | some (JVal.obj mcp) =>
    setKey D "mcp" (JVal.obj (mcp.map (fun p => (p.1, sanitizeServerValue p.1 p.2))))
  | _ => D

/-- `extractMcpSecrets`: the JSON clone is the identity on JSON-compatible
documents, the header/oauth loop produces `sanitizeConfig`, and the
`setNestedValue` calls build the override tree from the empty object. -/
def extractMcpSecrets (D : Obj) : Obj × Obj :=
  (sanitizeConfig D, substPaths [] (configSecretPaths D))

/-! ### `mergeOverrides` and `stripOverrideKeys` -/

mutual
/-- Modelled from the spec: `deepMerge` is imported from `./config.js`,
whose source is not part of this repository snapshot.  Per §4.2: at every
path present in both, two plain mappings merge recursively, otherwise the
extra value wins; keys only in one side are kept. -/
def deepMergeV : JVal → JVal → JVal
  | JVal.obj b, JVal.obj e => JVal.obj (deepMergeEntries b e)
  | _, e => e

/-- Modelled from the spec: the entry fold of the deep merge, taking the
extra object's entries in order. -/
def deepMergeEntries : Obj → Obj → Obj
  | base, [] => base
  | base, (k, v) :: rest =>
    deepMergeEntries
      (setKey base k
        (match lookupKey base k with
         | some bv => deepMergeV bv v
         | none => v)) rest
end

/-- `mergeOverrides` delegates to the deep merge of two plain objects. -/
def mergeOverrides (base extra : Obj) : Obj :=
  deepMergeEntries base extra

mutual
/-- The loop of `stripOverrideKeys` over the entries of `toRemove`,
acting on the spread copy of `base`. -/
def stripEntries : Obj → Obj → Obj
  | result, [] => result
  | result, (k, rv) :: rest => stripEntries (stripStep result k (lookupKey result k) rv) rest

/-- One iteration of the `stripOverrideKeys` loop, given the value the
result currently holds at the key: skip a key absent from the result,
recurse when both values are plain objects (deleting the key when the
recursion empties it), delete the key otherwise. -/
def stripStep (result : Obj) (k : String) : Option JVal → JVal → Obj
  | none, _ => result
  | some (JVal.obj cvo), JVal.obj rvo =>
    if (stripEntries cvo rvo).isEmpty then removeKey result k
    else setKey result k (JVal.obj (stripEntries cvo rvo))
  | some _, _ => removeKey result k
end

/-- `stripOverrideKeys`, including the plain-object guard on both
arguments. -/
def stripOverrideKeys : JVal → JVal → JVal
  | JVal.obj b, JVal.obj r => JVal.obj (stripEntries b r)
  | b, _ => b

/-- `hasOverrides`. -/
def hasOverrides (o : Obj) : Bool :=
  !o.isEmpty

/-! ### Definitions used to state the claims -/

/-- The token derivation exactly as the spec words it, with no initial
whitespace trim: collapse runs of non-alphanumeric characters to single
underscores, trim leading and trailing underscores, fall back on an empty
result, and uppercase.  (The source additionally calls `trim()` first;
the equivalence proof below shows that pass is redundant.) -/
def specEnvToken (input fallback : String) : String :=
  let cleaned := trimUnderscores (collapseNonAlnum input.data)
  if cleaned.isEmpty then fallback else String.mk (cleaned.map Char.toUpper)

/-- Value reached by walking a non-empty key path through nested objects. -/
def lookupPath : Obj → List String → Option JVal
  | _, [] => none
  | o, [k] => lookupKey o k
  | o, k :: k2 :: rest =>
    match lookupKey o k with
    | some (JVal.obj inner) => lookupPath inner (k2 :: rest)
    | _ => none

mutual
/-- All `(path, value)` leaf entries of a nested object, in preorder; a
nested object contributes its leaves under the prefixed key. -/
def leafEntries : Obj → List (List String × JVal)
  | [] => []
  | (k, v) :: rest => leafOf k v ++ leafEntries rest

/-- The leaf entries of a single entry: an object value contributes its
leaves under the prefixed key, any other value is itself a leaf. -/
def leafOf (k : String) : JVal → List (List String × JVal)
  | JVal.obj i => (leafEntries i).map (fun pv => (k :: pv.1, pv.2))
  | v => [([k], v)]
end

/-- A value that already carries an environment placeholder. -/
def valueSanitized : JVal → Bool
  | JVal.str s => containsEnvPlaceholder s.data
  | _ => false

/-- Every header value and any `oauth.clientSecret` of the server already
matches the placeholder pattern. -/
def serverAllSanitized (sc : Obj) : Bool :=
  (match lookupKey sc "headers" with
   | some (JVal.obj hs) => hs.all (fun p => valueSanitized p.2)
   | _ => true) &&
  (match lookupKey sc "oauth" with
   | some (JVal.obj oa) =>
     match lookupKey oa "clientSecret" with
     | some cs => valueSanitized cs
     | none => true
   | _ => true)

/-- Every header value and every `oauth.clientSecret` of the document
already matches the placeholder pattern. -/
def allSanitized (D : Obj) : Bool :=
  match lookupKey D "mcp" with
  | some (JVal.obj mcp) =>
    mcp.all (fun p =>
      match p.2 with
      | JVal.obj sc => serverAllSanitized sc
      | _ => true)
  | _ => true

/-- `p` starts `q`: some suffix extends `p` to `q`. -/
def startsPath (p q : List String) : Prop := ∃ r, p ++ r = q

/-- The payload of the plain object stored at a key, when there is one. -/
def plainObjectAt (o : Obj) (k : String) : Option Obj :=
  match lookupKey o k with
  | some (JVal.obj i) => some i
  | _ => none

/-- The secret header entries of a headers object, original values. -/
def headerSecretEntries (hs : Obj) : Obj :=
  hs.filterMap (fun p => if isSecretString p.2 then some (p.1, p.2) else none)

/-- The override subtree contributed by one server. -/
def serverOverrideObj (sc : Obj) : Obj :=
  (match lookupKey sc "headers" with
   | some (JVal.obj hs) =>
     if (headerSecretEntries hs).isEmpty then [] else [("headers", JVal.obj (headerSecretEntries hs))]
   | _ => []) ++
  (match lookupKey sc "oauth" with
   | some (JVal.obj oa) =>
     match lookupKey oa "clientSecret" with
     | some cs =>
       if isSecretString cs then [("oauth", JVal.obj [("clientSecret", cs)])] else []
     | none => []
   | _ => [])

/-- The override entry contributed by one `mcp` entry to the tree: a server
object with at least one recorded secret keeps its subtree, everything else
is skipped. -/
def serverOverrideEntry (p : String × JVal) : Option (String × JVal) :=
  match p.2 with
  | JVal.obj sc =>
    if (serverOverrideObj sc).isEmpty then none
    else some (p.1, JVal.obj (serverOverrideObj sc))
  | _ => none

/-- The override tree in its explicit nested shape. -/
def overridesTree (D : Obj) : Obj :=
  match lookupKey D "mcp" with
  | some (JVal.obj mcp) =>
    (fun servers => if servers.isEmpty then [] else [("mcp", JVal.obj servers)])
      (mcp.filterMap serverOverrideEntry)
  | _ => []

/-- What §4.3 of the spec prescribes for one key of the strip result:
keys absent from `toRemove` survive with their value, two plain mappings
recurse (the parent disappearing when the recursion empties it), and any
other key present in both is deleted. -/
def stripSpecLookup (b r : Option JVal) : Option JVal :=
  match b, r with
  | some bv, none => some bv
  | some (JVal.obj bo), some (JVal.obj ro) =>
    if (stripEntries bo ro).isEmpty then none else some (JVal.obj (stripEntries bo ro))
  | some _, some _ => none
  | none, _ => none

/-- What §4.2 of the spec prescribes for one key of the merge result:
keys absent from `extra` keep the base value, two plain mappings merge
recursively, and otherwise the extra value wins (keys only in `extra`
are added). -/
def mergeSpecLookup (b e : Option JVal) : Option JVal :=
  match b, e with
  | bv, none => bv
  | some (JVal.obj bo), some (JVal.obj eo) => some (JVal.obj (deepMergeEntries bo eo))
  | _, some ev => some ev

/-- A sample document with one header secret, used to witness theorems. -/
def sampleDoc : Obj :=
  [("other", JVal.num 7),
   ("mcp", JVal.obj [("c7", JVal.obj
     [("url", JVal.str "https://x"),
      ("headers", JVal.obj [("K", JVal.str "s3cret")])])])]

/-! ### Well-formedness: JavaScript objects never carry duplicate keys -/

/-- No duplicate keys at the top level of an object. -/
def distinctKeysObj : Obj → Bool
  | [] => true
  | (k, _) :: rest => !containsKey rest k && distinctKeysObj rest

mutual
/-- No duplicate keys at any object node of the tree; every value produced
by `JSON.parse` satisfies this. -/
def wfTree : JVal → Bool
  | JVal.obj o => distinctKeysObj o && wfEntries o
  | JVal.arr l => wfElems l
  | _ => true

/-- `wfTree` for every value of an entry list. -/
def wfEntries : Obj → Bool
  | [] => true
  | (_, v) :: rest => wfTree v && wfEntries rest

/-- `wfTree` for every element of an array. -/
def wfElems : List JVal → Bool
  | [] => true
  | v :: rest => wfTree v && wfElems rest
end

/-- The duplicate-freedom `extractMcpSecrets` can rely on: no duplicate keys
at the document root, under `mcp`, in any server object, nor in any
`headers`/`oauth` object.  Any parsed JSON document satisfies this. -/
def wfConfig (D : Obj) : Bool :=
  distinctKeysObj D &&
  (match lookupKey D "mcp" with
   | some (JVal.obj mcp) =>
     distinctKeysObj mcp && mcp.all (fun p =>
       match p.2 with
       | JVal.obj sc =>
         distinctKeysObj sc &&
         (match lookupKey sc "headers" with
          | some (JVal.obj hs) => distinctKeysObj hs
          | _ => true) &&
         (match lookupKey sc "oauth" with
          | some (JVal.obj oa) => distinctKeysObj oa
          | _ => true)
       | _ => true)
   | _ => true)

/-! ### Relative secret paths, for the round-trip proof -/

/-- The recorded secret header entries of a headers object, each with the
single-key path `[name]` relative to the headers object. -/
def headerLeafPaths (hs : Obj) : List (List String × JVal) :=
  hs.filterMap (fun p => if isSecretString p.2 then some ([p.1], p.2) else none)

/-- The recorded secret paths of one server object, relative to the server
object: `headers.<name>` entries first, then `oauth.clientSecret`. -/
def serverRelPaths (sc : Obj) : List (List String × JVal) :=
  (match lookupKey sc "headers" with
   | some (JVal.obj hs) => (headerLeafPaths hs).map (fun pv => ("headers" :: pv.1, pv.2))
   | _ => []) ++
  (match lookupKey sc "oauth" with
   | some (JVal.obj oa) =>
     match lookupKey oa "clientSecret" with
     | some cs => if isSecretString cs then [(["oauth", "clientSecret"], cs)] else []
     | none => []
   | _ => [])

/-- The recorded secret paths contributed by one `mcp` entry, relative to
the `mcp` object: only server objects contribute. -/
def serverGroupPaths (s : String) : JVal → List (List String × JVal)
  | JVal.obj sc => (serverRelPaths sc).map (fun pv => (s :: pv.1, pv.2))
  | _ => []

/-- All recorded secret paths of an `mcp` object, relative to it, in loop
order across servers. -/
def mcpRelPaths (mcp : Obj) : List (List String × JVal) :=
  mcp.foldr (fun q acc => serverGroupPaths q.1 q.2 ++ acc) []

/-! ### Association-list lemmas -/

theorem lookupKey_eq_none_of_not_contains {o : Obj} {k : String}
    (h : containsKey o k = false) : lookupKey o k = none := by
  induction o with
  | nil => rfl
  | cons p rest ih =>
    obtain ⟨k1, w⟩ := p
    simp only [containsKey, Bool.or_eq_false_iff, beq_eq_false_iff_ne] at h
    simp only [lookupKey, if_neg h.1]
    exact ih h.2

theorem contains_of_lookupKey_eq_some {o : Obj} {k : String} {v : JVal}
    (h : lookupKey o k = some v) : containsKey o k = true := by
  induction o with
  | nil => simp [lookupKey] at h
  | cons p rest ih =>
    obtain ⟨k1, w⟩ := p
    by_cases hk : k1 = k
    · subst hk; simp [containsKey]
    · simp only [lookupKey, if_neg hk] at h
      simp [containsKey, ih h, hk]

theorem lookupKey_setKey_self (o : Obj) (k : String) (v : JVal) :
    lookupKey (setKey o k v) k = some v := by
  induction o with
  | nil => simp [setKey, lookupKey]
  | cons p rest ih =>
    obtain ⟨k1, w⟩ := p
    by_cases h : k1 = k
    · subst h; simp [setKey, lookupKey]
    · simp [setKey, lookupKey, h, ih]

theorem lookupKey_setKey_ne (o : Obj) {k k' : String} (v : JVal) (h : k' ≠ k) :
    lookupKey (setKey o k v) k' = lookupKey o k' := by
  induction o with
  | nil => simp [setKey, lookupKey, Ne.symm h]
  | cons p rest ih =>
    obtain ⟨k1, w⟩ := p
    by_cases hk : k1 = k
    · subst hk
      simp [setKey, lookupKey, Ne.symm h]
    · simp [setKey, lookupKey, hk, ih]

theorem lookupKey_removeKey_ne (o : Obj) {k k' : String} (h : k' ≠ k) :
    lookupKey (removeKey o k) k' = lookupKey o k' := by
  induction o with
  | nil => rfl
  | cons p rest ih =>
    obtain ⟨k1, w⟩ := p
    by_cases hk : k1 = k
    · subst hk
      simp [removeKey, lookupKey, Ne.symm h]
    · simp [removeKey, lookupKey, hk, ih]

theorem lookupKey_removeKey_self {o : Obj} (k : String)
    (h : distinctKeysObj o = true) : lookupKey (removeKey o k) k = none := by
  induction o with
  | nil => rfl
  | cons p rest ih =>
    obtain ⟨k1, w⟩ := p
    simp only [distinctKeysObj, Bool.and_eq_true, Bool.not_eq_true'] at h
    by_cases hk : k1 = k
    · subst hk
      simpa [removeKey] using lookupKey_eq_none_of_not_contains h.1
    · simp only [removeKey, if_neg hk, lookupKey, if_neg hk]
      exact ih h.2

theorem setKey_eq_self {o : Obj} {k : String} {v : JVal}
    (h : lookupKey o k = some v) : setKey o k v = o := by
  induction o with
  | nil => simp [lookupKey] at h
  | cons p rest ih =>
    obtain ⟨k1, w⟩ := p
    by_cases hk : k1 = k
    · subst hk
      have hw : w = v := by simpa [lookupKey] using h
      subst hw
      simp [setKey]
    · simp only [lookupKey, if_neg hk] at h
      simp [setKey, hk, ih h]

theorem setKey_setKey_same (o : Obj) (k : String) (a b : JVal) :
    setKey (setKey o k a) k b = setKey o k b := by
  induction o with
  | nil => simp [setKey]
  | cons p rest ih =>
    obtain ⟨k1, w⟩ := p
    by_cases hk : k1 = k
    · subst hk; simp [setKey]
    · simp [setKey, hk, ih]

theorem setKey_comm {o : Obj} {k1 k2 : String} (a b : JVal)
    (hne : k1 ≠ k2) (h : containsKey o k1 = true) :
    setKey (setKey o k1 a) k2 b = setKey (setKey o k2 b) k1 a := by
  induction o with
  | nil => simp [containsKey] at h
  | cons p rest ih =>
    obtain ⟨k0, w⟩ := p
    by_cases h1 : k0 = k1
    · subst h1
      simp [setKey, hne, fun hh : k0 = k2 => hne hh]
    · by_cases h2 : k0 = k2
      · subst h2
        simp [setKey, h1]
      · simp only [containsKey, Bool.or_eq_true, beq_iff_eq] at h
        rcases h with h | h
        · exact absurd h h1
        · simp [setKey, h1, h2, ih h]

theorem removeKey_not_contains {o : Obj} {k : String}
    (h : containsKey o k = false) : removeKey o k = o := by
  induction o with
  | nil => rfl
  | cons p rest ih =>
    obtain ⟨k1, w⟩ := p
    simp only [containsKey, Bool.or_eq_false_iff, beq_eq_false_iff_ne] at h
    simp [removeKey, h.1, ih h.2]

theorem containsKey_setKey_ne (o : Obj) {k k' : String} (v : JVal) (h : k' ≠ k) :
    containsKey (setKey o k v) k' = containsKey o k' := by
  induction o with
  | nil => simp [setKey, containsKey, Ne.symm h]
  | cons p rest ih =>
    obtain ⟨k1, w⟩ := p
    by_cases hk : k1 = k
    · subst hk; simp [setKey, containsKey]
    · simp [setKey, containsKey, hk, ih]

theorem containsKey_removeKey_false (o : Obj) {k k' : String}
    (h : containsKey o k' = false) : containsKey (removeKey o k) k' = false := by
  induction o with
  | nil => rfl
  | cons p rest ih =>
    obtain ⟨k1, w⟩ := p
    simp only [containsKey, Bool.or_eq_false_iff] at h
    by_cases hk : k1 = k
    · subst hk; simp [removeKey, h.2]
    · simp [removeKey, containsKey, hk, h.1, ih h.2]

theorem distinctKeysObj_setKey {o : Obj} (k : String) (v : JVal)
    (h : distinctKeysObj o = true) : distinctKeysObj (setKey o k v) = true := by
  induction o with
  | nil => simp [setKey, distinctKeysObj, containsKey]
  | cons p rest ih =>
    obtain ⟨k1, w⟩ := p
    simp only [distinctKeysObj, Bool.and_eq_true, Bool.not_eq_true'] at h
    by_cases hk : k1 = k
    · subst hk
      simp [setKey, distinctKeysObj, h.1, h.2]
    · simp [setKey, distinctKeysObj, hk, containsKey_setKey_ne rest v hk, h.1, ih h.2]

theorem distinctKeysObj_removeKey {o : Obj} (k : String)
    (h : distinctKeysObj o = true) : distinctKeysObj (removeKey o k) = true := by
  induction o with
  | nil => rfl
  | cons p rest ih =>
    obtain ⟨k1, w⟩ := p
    simp only [distinctKeysObj, Bool.and_eq_true, Bool.not_eq_true'] at h
    by_cases hk : k1 = k
    · subst hk; simp [removeKey, h.2]
    · simp [removeKey, distinctKeysObj, hk, containsKey_removeKey_false rest h.1, h.2, ih h.2]

theorem lookupKey_map_entry (g : String → JVal → JVal) (o : Obj) (k : String) :
    lookupKey (o.map (fun p => (p.1, g p.1 p.2))) k = (lookupKey o k).map (g k) := by
  induction o with
  | nil => rfl
  | cons p rest ih =>
    obtain ⟨k1, w⟩ := p
    by_cases hk : k1 = k
    · subst hk; simp [lookupKey]
    · simp [lookupKey, hk, ih]

theorem containsKey_map_entry (g : String → JVal → JVal) (o : Obj) (k : String) :
    containsKey (o.map (fun p => (p.1, g p.1 p.2))) k = containsKey o k := by
  induction o with
  | nil => rfl
  | cons p rest ih =>
    obtain ⟨k1, w⟩ := p
    simp [containsKey, ih]

theorem distinctKeysObj_map_entry (g : String → JVal → JVal) {o : Obj}
    (h : distinctKeysObj o = true) :
    distinctKeysObj (o.map (fun p => (p.1, g p.1 p.2))) = true := by
  induction o with
  | nil => rfl
  | cons p rest ih =>
    obtain ⟨k1, w⟩ := p
    simp only [distinctKeysObj, Bool.and_eq_true, Bool.not_eq_true'] at h
    simp [distinctKeysObj, containsKey_map_entry, h.1, ih h.2]

/-! ### `setNestedValue` and `substPaths` lemmas -/

theorem innerOf_setKey_self (o : Obj) (k : String) (i : Obj) :
    innerOf (setKey o k (JVal.obj i)) k = i := by
  simp [innerOf, lookupKey_setKey_self]

theorem innerOf_cons_ne {p : String × JVal} {o : Obj} {k : String} (h : p.1 ≠ k) :
    innerOf (p :: o) k = innerOf o k := by
  obtain ⟨k1, w⟩ := p
  simp only at h
  simp [innerOf, lookupKey, h]

theorem setKey_cons_ne {k1 : String} (w : JVal) (o : Obj) {k : String} (v : JVal)
    (h : k1 ≠ k) : setKey ((k1, w) :: o) k v = (k1, w) :: setKey o k v := by
  simp [setKey, h]

theorem setNested_cons_keep {s : String} (w : JVal) (o : Obj) {p : List String} (v : JVal)
    (h : p.head? ≠ some s) :
    setNested ((s, w) :: o) p v = (s, w) :: setNested o p v := by
  match p with
  | [] => rfl
  | [k] =>
    have hk : s ≠ k := by intro hh; exact h (by simp [hh])
    simp [setNested, setKey, hk]
  | k :: k2 :: rest =>
    have hk : s ≠ k := by intro hh; exact h (by simp [hh])
    rw [setNested, setKey_cons_ne w o _ hk, innerOf_cons_ne (by simpa using hk)]
    rfl

theorem substPaths_cons_keep {l : List (List String × JVal)} (s : String) (w : JVal)
    (o : Obj) (h : ∀ pv ∈ l, pv.1.head? ≠ some s) :
    substPaths ((s, w) :: o) l = (s, w) :: substPaths o l := by
  induction l generalizing o with
  | nil => rfl
  | cons pv rest ih =>
    have h1 : pv.1.head? ≠ some s := h pv (List.mem_cons_self pv rest)
    have h2 : ∀ q ∈ rest, q.1.head? ≠ some s := fun q hq => h q (List.mem_cons_of_mem pv hq)
    simp only [substPaths, List.foldl_cons]
    rw [show (setNested ((s, w) :: o) pv.1 pv.2) = (s, w) :: setNested o pv.1 pv.2 from
      setNested_cons_keep w o pv.2 h1]
    exact ih (setNested o pv.1 pv.2) h2

theorem substPaths_append (o : Obj) (l1 l2 : List (List String × JVal)) :
    substPaths o (l1 ++ l2) = substPaths (substPaths o l1) l2 := by
  simp [substPaths, List.foldl_append]

theorem substPaths_peel (k : String) :
    ∀ (L : List (List String × JVal)) (o : Obj), L ≠ [] → (∀ pv ∈ L, pv.1 ≠ []) →
    substPaths o (L.map (fun pv => (k :: pv.1, pv.2))) =
      setKey o k (JVal.obj (substPaths (innerOf o k) L))
  | [], _, hne, _ => absurd rfl hne
  | [pv], o, _, hp => by
    obtain ⟨p, v⟩ := pv
    match p, hp (p, v) (List.mem_singleton_self _) with
    | k2 :: rest, _ =>
      simp [substPaths, setNested]
  | pv :: q :: t, o, _, hp => by
    obtain ⟨p, v⟩ := pv
    have hrest : ∀ x ∈ q :: t, x.1 ≠ [] := fun x hx => hp x (List.mem_cons_of_mem _ hx)
    have hpne : p ≠ [] := hp (p, v) (List.mem_cons_self _ _)
    match p, hpne with
    | k2 :: r, _ =>
      have step : setNested o (k :: k2 :: r) v =
          setKey o k (JVal.obj (setNested (innerOf o k) (k2 :: r) v)) := rfl
      have unfold1 : substPaths o (((k2 :: r, v) :: q :: t).map (fun pv => (k :: pv.1, pv.2)))
          = substPaths (setNested o (k :: k2 :: r) v)
              ((q :: t).map (fun pv => (k :: pv.1, pv.2))) := rfl
      have unfold2 : substPaths (innerOf o k) ((k2 :: r, v) :: q :: t)
          = substPaths (setNested (innerOf o k) (k2 :: r) v) (q :: t) := rfl
      rw [unfold1, substPaths_peel k (q :: t) _ (by simp) hrest, step,
        setKey_setKey_same, innerOf_setKey_self, unfold2]

/-! ### Environment-token derivation: the initial `trim()` is redundant -/

theorem whitespace_not_alnum {c : Char} (h : c.isWhitespace = true) :
    isEnvAlnum c = false := by
  simp only [Char.isWhitespace, Bool.or_eq_true, decide_eq_true_eq] at h
  rcases h with ((h | h) | h) | h <;> subst h <;> decide

theorem dropWhile_append_all {p : Char → Bool} :
    ∀ (b a : List Char), (∀ c ∈ b, p c = true) →
    List.dropWhile p (b ++ a) = List.dropWhile p a
  | [], _, _ => rfl
  | c :: b', a, h => by
    have hc : p c = true := h c (List.mem_cons_self _ _)
    simp only [List.cons_append, List.dropWhile, hc]
    exact dropWhile_append_all b' a (fun d hd => h d (List.mem_cons_of_mem _ hd))

theorem dropWhile_append_ne_nil {p : Char → Bool} :
    ∀ (x t : List Char), List.dropWhile p x ≠ [] →
    List.dropWhile p (x ++ t) = List.dropWhile p x ++ t
  | [], _, h => absurd rfl h
  | c :: x', t, h => by
    cases hc : p c
    · simp only [List.cons_append, List.dropWhile, hc]
      rfl
    · simp only [List.dropWhile, hc] at h
      simp only [List.cons_append, List.dropWhile, hc]
      exact dropWhile_append_ne_nil x' t h

theorem trim_cons_underscore (x : List Char) :
    trimUnderscores ('_' :: x) = trimUnderscores x := by
  simp [trimUnderscores, List.dropWhile]

theorem trim_append_underscore (x : List Char) :
    trimUnderscores (x ++ ['_']) = trimUnderscores x := by
  cases hnil : List.dropWhile (fun c => c = '_') x with
  | nil =>
    have hall : ∀ c ∈ x, (fun c => decide (c = '_')) c = true := by
      intro c hc
      exact List.dropWhile_eq_nil_iff.mp hnil c hc
    have h1 : List.dropWhile (fun c => c = '_') (x ++ ['_'])
        = List.dropWhile (fun c => c = '_') ['_'] := dropWhile_append_all x ['_'] hall
    simp only [trimUnderscores, h1, hnil]
    rfl
  | cons d y =>
    have h1 : List.dropWhile (fun c => c = '_') (x ++ ['_'])
        = List.dropWhile (fun c => c = '_') x ++ ['_'] :=
      dropWhile_append_ne_nil x ['_'] (by simp [hnil])
    have hd : ¬(d = '_') := by
      have := List.head?_dropWhile_not (fun c => c = '_') x
      rw [hnil] at this
      simpa using this
    simp only [trimUnderscores, h1, hnil, List.reverse_append, List.reverse_cons,
      List.reverse_nil, List.nil_append, List.singleton_append, List.dropWhile]
    simp

theorem collapse_cons_nonalnum :
    ∀ (t : List Char) {c : Char}, isEnvAlnum c = false →
    collapseNonAlnum (c :: t) =
      '_' :: collapseNonAlnum (t.dropWhile (fun d => !isEnvAlnum d))
  | [], c, hc => by simp [collapseNonAlnum, hc]
  | d :: rest, c, hc => by
    cases hd : isEnvAlnum d
    · rw [show collapseNonAlnum (c :: d :: rest) = collapseNonAlnum (d :: rest) from by
        simp [collapseNonAlnum, hc, hd]]
      rw [collapse_cons_nonalnum rest hd]
      simp [List.dropWhile, hd]
    · rw [show collapseNonAlnum (c :: d :: rest) = '_' :: collapseNonAlnum (d :: rest) from by
        simp [collapseNonAlnum, hc, hd]]
      simp [List.dropWhile, hd]

theorem collapse_cons_alnum {c : Char} (t : List Char) (hc : isEnvAlnum c = true) :
    collapseNonAlnum (c :: t) = c :: collapseNonAlnum t := by
  cases t with
  | nil => simp [collapseNonAlnum, hc]
  | cons d rest => simp [collapseNonAlnum, hc]

theorem trim_collapse_dropNonalnum (a : List Char) :
    trimUnderscores (collapseNonAlnum (a.dropWhile (fun d => !isEnvAlnum d))) =
      trimUnderscores (collapseNonAlnum a) := by
  cases a with
  | nil => rfl
  | cons c t =>
    cases hc : isEnvAlnum c
    · rw [collapse_cons_nonalnum t hc, trim_cons_underscore]
      simp only [List.dropWhile, hc, Bool.not_false]
    · simp only [List.dropWhile, hc, Bool.not_true]

theorem collapse_append_nonalnum :
    ∀ (a b : List Char), (∀ c ∈ b, isEnvAlnum c = false) →
    collapseNonAlnum (a ++ b) = collapseNonAlnum a ∨
    collapseNonAlnum (a ++ b) = collapseNonAlnum a ++ ['_']
  | [], b, h => by
    cases b with
    | nil => left; rfl
    | cons c b' =>
      right
      have hc := h c (List.mem_cons_self _ _)
      have hnil : List.dropWhile (fun d => !isEnvAlnum d) b' = [] :=
        List.dropWhile_eq_nil_iff.mpr
          (fun d hd => by simp [h d (List.mem_cons_of_mem _ hd)])
      simp only [List.nil_append, collapse_cons_nonalnum b' hc, hnil]
      simp [collapseNonAlnum]
  | c :: t, b, h => by
    cases hc : isEnvAlnum c
    · have e1 : collapseNonAlnum ((c :: t) ++ b)
          = '_' :: collapseNonAlnum (List.dropWhile (fun d => !isEnvAlnum d) (t ++ b)) := by
        rw [List.cons_append, collapse_cons_nonalnum _ hc]
      have e2 : collapseNonAlnum (c :: t)
          = '_' :: collapseNonAlnum (List.dropWhile (fun d => !isEnvAlnum d) t) := by
        rw [collapse_cons_nonalnum _ hc]
      cases hnil : List.dropWhile (fun d => !isEnvAlnum d) t with
      | nil =>
        have hall : ∀ d ∈ t, (fun d => !isEnvAlnum d) d = true :=
          List.dropWhile_eq_nil_iff.mp hnil
        have hball : ∀ d ∈ b, (fun d => !isEnvAlnum d) d = true := by
          intro d hd; simp [h d hd]
        have hz : List.dropWhile (fun d => !isEnvAlnum d) (t ++ b) = [] := by
          rw [dropWhile_append_all t b hall]
          exact List.dropWhile_eq_nil_iff.mpr hball
        left
        rw [e1, e2, hnil, hz]
      | cons d t' =>
        have e3 : List.dropWhile (fun d => !isEnvAlnum d) (t ++ b)
            = List.dropWhile (fun d => !isEnvAlnum d) t ++ b :=
          dropWhile_append_ne_nil t b (by simp [hnil])
        rcases collapse_append_nonalnum (d :: t') b h with h4 | h4
        · left
          rw [e1, e3, hnil, h4, e2, hnil]
        · right
          rw [e1, e3, hnil, h4, e2, hnil]
          rfl
    · rcases collapse_append_nonalnum t b h with h4 | h4
      · left
        rw [List.cons_append, collapse_cons_alnum _ hc, collapse_cons_alnum _ hc, h4]
      · right
        rw [List.cons_append, collapse_cons_alnum _ hc, collapse_cons_alnum _ hc, h4]
        rfl
termination_by a _ _ => a.length
decreasing_by
  · have hlen : (t.dropWhile (fun d => !isEnvAlnum d)).length ≤ t.length :=
      (List.dropWhile_sublist _).length_le
    rw [hnil] at hlen
    simp only [List.length_cons] at hlen ⊢
    omega
  · simp only [List.length_cons]; omega

theorem trim_collapse_dropWs (m : List Char) :
    trimUnderscores (collapseNonAlnum (m.dropWhile Char.isWhitespace)) =
      trimUnderscores (collapseNonAlnum m) := by
  induction m with
  | nil => rfl
  | cons c t ih =>
    cases hw : c.isWhitespace
    · simp only [List.dropWhile, hw]
    · have hc : isEnvAlnum c = false := whitespace_not_alnum hw
      calc trimUnderscores (collapseNonAlnum (List.dropWhile Char.isWhitespace (c :: t)))
          = trimUnderscores (collapseNonAlnum (List.dropWhile Char.isWhitespace t)) := by
            simp only [List.dropWhile, hw]
        _ = trimUnderscores (collapseNonAlnum t) := ih
        _ = trimUnderscores (collapseNonAlnum
              (t.dropWhile (fun d => !isEnvAlnum d))) := (trim_collapse_dropNonalnum t).symm
        _ = trimUnderscores (collapseNonAlnum (c :: t)) := by
            rw [collapse_cons_nonalnum t hc, trim_cons_underscore]

theorem trim_collapse_dropWsRev (m : List Char) :
    trimUnderscores (collapseNonAlnum ((m.reverse.dropWhile Char.isWhitespace).reverse)) =
      trimUnderscores (collapseNonAlnum m) := by
  have hdec : m = (m.reverse.dropWhile Char.isWhitespace).reverse ++
      (m.reverse.takeWhile Char.isWhitespace).reverse := by
    conv_lhs => rw [← m.reverse_reverse]
    rw [← List.reverse_append, List.takeWhile_append_dropWhile]
  have hws : ∀ c ∈ (m.reverse.takeWhile Char.isWhitespace).reverse, isEnvAlnum c = false := by
    intro c hcmem
    rw [List.mem_reverse] at hcmem
    exact whitespace_not_alnum (List.mem_takeWhile_imp hcmem)
  rcases collapse_append_nonalnum ((m.reverse.dropWhile Char.isWhitespace).reverse)
      ((m.reverse.takeWhile Char.isWhitespace).reverse) hws with h4 | h4
  · conv_rhs => rw [hdec]
    rw [h4]
  · conv_rhs => rw [hdec]
    rw [h4, trim_append_underscore]

theorem toEnvToken_eq_spec (input fallback : String) :
    toEnvToken input fallback = specEnvToken input fallback := by
  unfold toEnvToken specEnvToken jsTrim
  rw [trim_collapse_dropWsRev, trim_collapse_dropWs]

/-- Claim C3: for header secrets, the environment-variable name is the
header name verbatim when it matches `^[A-Z0-9_]+$`; otherwise it is
`OPENCODE_MCP_<SERVER_TOKEN>_<HEADER_TOKEN>` with the tokens derived as
the spec describes (uppercase, collapse non-alphanumeric runs to single
underscores, trim edge underscores, with `SERVER`/`VALUE` fallbacks for
empty tokens). -/
theorem claim3_env_var_naming (serverName headerName : String) :
    (matchesUpperEnvName headerName = true →
      buildHeaderEnvVar serverName headerName = headerName) ∧
    (matchesUpperEnvName headerName = false →
      buildHeaderEnvVar serverName headerName =
        "OPENCODE_MCP_" ++ specEnvToken serverName "SERVER" ++ "_" ++
          specEnvToken headerName "VALUE") := by
  constructor <;> intro h <;>
    simp [buildHeaderEnvVar, h, buildEnvVar, toEnvToken_eq_spec]

/-- Witness for claim C3 at concrete inputs. -/
theorem claim3_env_var_naming_witness :
    buildHeaderEnvVar "context7" "CONTEXT7_API_KEY" = "CONTEXT7_API_KEY" ∧
    buildHeaderEnvVar "context7" "X-Api-Key" =
      "OPENCODE_MCP_" ++ specEnvToken "context7" "SERVER" ++ "_" ++
        specEnvToken "X-Api-Key" "VALUE" := by
  exact ⟨(claim3_env_var_naming "context7" "CONTEXT7_API_KEY").1 (by decide),
    (claim3_env_var_naming "context7" "X-Api-Key").2 (by decide)⟩

/-! ### Claims C4 and C9: placeholder construction and detection -/

theorem jsWhitespace_not_scheme {c : Char} (h : isJsWhitespace c = true) :
    isSchemeChar c = false := by
  unfold isJsWhitespace at h
  simp only [Bool.or_eq_true, Bool.and_eq_true, decide_eq_true_eq] at h
  rcases h with ((((((((((((((h|h)|h)|h)|h)|h)|h)|h)|h9)|h)|h)|h)|h)|h)|h)
  · subst h; decide
  · subst h; decide
  · subst h; decide
  · subst h; decide
  · subst h; decide
  · subst h; decide
  · subst h; decide
  · subst h; decide
  · obtain ⟨h1, h2⟩ := h9
    have hza : ¬ (c ≤ 'z') := fun hc => absurd (le_trans h1 hc) (by decide)
    have hZ : ¬ (c ≤ 'Z') := fun hc => absurd (le_trans h1 hc) (by decide)
    have h9d : ¬ (c ≤ '9') := fun hc => absurd (le_trans h1 hc) (by decide)
    have hp : ¬ (c = '+') := fun he => absurd h1 (by rw [he]; decide)
    have hdot : ¬ (c = '.') := fun he => absurd h1 (by rw [he]; decide)
    have hmin : ¬ (c = '-') := fun he => absurd h1 (by rw [he]; decide)
    simp [isSchemeChar, isAsciiLetter, hza, hZ, h9d, hp, hdot, hmin]
  · subst h; decide
  · subst h; decide
  · subst h; decide
  · subst h; decide
  · subst h; decide
  · subst h; decide

theorem takeWhile_append_all {p : Char → Bool} :
    ∀ (a b : List Char), (∀ c ∈ a, p c = true) →
    List.takeWhile p (a ++ b) = a ++ List.takeWhile p b
  | [], _, _ => rfl
  | c :: a', b, h => by
    have hc : p c = true := h c (List.mem_cons_self _ _)
    simp only [List.cons_append, List.takeWhile, hc]
    rw [show a'.append b = a' ++ b from rfl,
      takeWhile_append_all a' b (fun d hd => h d (List.mem_cons_of_mem _ hd))]

/-- Claim C4: for non-authorization headers the replacement is exactly
`\x7benv:VAR\x7d`; for `authorization`/`proxy-authorization` headers whose
value starts with a scheme token followed by whitespace, the matched
scheme prefix (whitespace included) is kept verbatim in front of the
placeholder; an authorization value with no recognizable scheme gets the
bare placeholder; and the override path list always records the original
full header value. -/
theorem claim4_scheme_preservation :
    (∀ value envVar headerName : String,
      isAuthorizationHeader headerName = false →
      buildHeaderPlaceholder value envVar headerName = envPlaceholder envVar) ∧
    (∀ (envVar headerName : String) (c : Char) (sch ws rest : List Char),
      isAuthorizationHeader headerName = true →
      isAsciiLetter c = true →
      (∀ d ∈ sch, isSchemeChar d = true) →
      (∀ d ∈ ws, isJsWhitespace d = true) → ws ≠ [] →
      (∀ d r, rest = d :: r → isJsWhitespace d = false) →
      buildHeaderPlaceholder (String.mk (c :: (sch ++ (ws ++ rest)))) envVar headerName =
        String.mk (c :: (sch ++ ws)) ++ envPlaceholder envVar) ∧
    (∀ value envVar headerName : String,
      isAuthorizationHeader headerName = true →
      schemeMatchFull value.data = none →
      buildHeaderPlaceholder value envVar headerName = envPlaceholder envVar) ∧
    (∀ (serverName : String) (sc hs : Obj) (h : String) (v : JVal),
      lookupKey sc "headers" = some (JVal.obj hs) →
      (h, v) ∈ hs → isSecretString v = true →
      (["mcp", serverName, "headers", h], v) ∈ serverSecretPaths serverName sc) := by
  refine ⟨?_, ?_, ?_, ?_⟩
  · intro value envVar headerName hna
    simp [buildHeaderPlaceholder, hna]
  · intro envVar headerName c sch ws rest hauth hc hsch hws hwsne hrest
    obtain ⟨w0, ws', rfl⟩ : ∃ w0 ws', ws = w0 :: ws' := by
      cases ws with
      | nil => exact absurd rfl hwsne
      | cons w0 ws' => exact ⟨w0, ws', rfl⟩
    have hw0 : isJsWhitespace w0 = true := hws w0 (List.mem_cons_self _ _)
    have htake : List.takeWhile isSchemeChar (sch ++ ((w0 :: ws') ++ rest)) = sch := by
      rw [takeWhile_append_all sch _ hsch]
      simp [List.takeWhile, jsWhitespace_not_scheme hw0]
    have hdrop : List.dropWhile isSchemeChar (sch ++ ((w0 :: ws') ++ rest)) =
        (w0 :: ws') ++ rest := by
      rw [dropWhile_append_all sch _ hsch]
      simp [List.dropWhile, jsWhitespace_not_scheme hw0]
    have htakews : List.takeWhile isJsWhitespace ((w0 :: ws') ++ rest) = w0 :: ws' := by
      rw [takeWhile_append_all (w0 :: ws') rest hws]
      cases rest with
      | nil => simp
      | cons d r => simp [List.takeWhile, hrest d r rfl]
    have hscheme : schemeMatchFull (c :: (sch ++ ((w0 :: ws') ++ rest))) =
        some (c :: (sch ++ (w0 :: ws'))) := by
      have hred : schemeMatchFull (c :: (sch ++ ((w0 :: ws') ++ rest))) =
          (if isAsciiLetter c = true then
            (fun s2 w2 => if w2.isEmpty then none else some (c :: (s2 ++ w2)))
              (List.takeWhile isSchemeChar (sch ++ ((w0 :: ws') ++ rest)))
              (List.takeWhile isJsWhitespace
                (List.dropWhile isSchemeChar (sch ++ ((w0 :: ws') ++ rest))))
          else none) := rfl
      rw [hred, if_pos hc]
      simp only [htake, hdrop, htakews]
      simp
    have hb : buildHeaderPlaceholder (String.mk (c :: (sch ++ ((w0 :: ws') ++ rest))))
          envVar headerName
        = match schemeMatchFull (c :: (sch ++ ((w0 :: ws') ++ rest))) with
          | some pre => String.mk pre ++ envPlaceholder envVar
          | none => envPlaceholder envVar := by
      unfold buildHeaderPlaceholder
      rw [hauth]
      rfl
    rw [hb, hscheme]
  · intro value envVar headerName hauth hnone
    simp [buildHeaderPlaceholder, hauth, hnone]
  · intro serverName sc hs h v hlk hmem hsec
    unfold serverSecretPaths headerSecretPaths oauthSecretPaths
    rw [hlk]
    apply List.mem_append_left
    exact List.mem_filterMap.mpr ⟨(h, v), hmem, by simp [hsec]⟩

/-- Witness for claim C4: the spec's `Bearer abc123` example. -/
theorem claim4_scheme_preservation_witness :
    buildHeaderPlaceholder "Bearer abc123" "OPENCODE_MCP_GITHUB_AUTHORIZATION"
        "Authorization" =
      "Bearer " ++ envPlaceholder "OPENCODE_MCP_GITHUB_AUTHORIZATION" := by
  have h := (claim4_scheme_preservation).2.1 "OPENCODE_MCP_GITHUB_AUTHORIZATION"
    "Authorization" 'B' ['e', 'a', 'r', 'e', 'r'] [' '] ['a', 'b', 'c', '1', '2', '3']
    (by decide) (by decide) (by decide) (by decide) (by decide)
    (by intro d r hr
        injection hr with h1 h2
        subst h1
        decide)
  exact h

theorem containsEnv_append_right (a : List Char) {b : List Char}
    (h : containsEnvPlaceholder b = true) : containsEnvPlaceholder (a ++ b) = true := by
  induction a with
  | nil => simpa
  | cons c a' ih => simp [containsEnvPlaceholder, ih]

theorem envMatchHere_build (e n v : Char) (m b : List Char)
    (he : e.toLower = 'e') (hn : n.toLower = 'n') (hv : v.toLower = 'v')
    (hm : m ≠ []) (hmb : ∀ c ∈ m, c ≠ '\x7d') :
    envMatchHere ('\x7b' :: e :: n :: v :: ':' :: (m ++ '\x7d' :: b)) = true := by
  obtain ⟨c0, m', rfl⟩ : ∃ c0 m', m = c0 :: m' := by
    cases m with
    | nil => exact absurd rfl hm
    | cons c0 m' => exact ⟨c0, m', rfl⟩
  have hc0 : c0 ≠ '\x7d' := hmb c0 (List.mem_cons_self _ _)
  have hcontains : (m' ++ '\x7d' :: b).contains '\x7d' = true :=
    List.elem_eq_true_of_mem (List.mem_append_right m' (List.mem_cons_self _ _))
  simp [envMatchHere, he, hn, hv, envTailMatch, hc0, hcontains]

theorem serverSecretPaths_secret {serverName : String} {sc : Obj} {pv : List String × JVal}
    (hmem : pv ∈ serverSecretPaths serverName sc) : isSecretString pv.2 = true := by
  unfold serverSecretPaths headerSecretPaths oauthSecretPaths at hmem
  rcases List.mem_append.mp hmem with hmem | hmem
  · split at hmem
    · obtain ⟨q, hq, heq⟩ := List.mem_filterMap.mp hmem
      by_cases hsec : isSecretString q.2 = true
      · rw [if_pos hsec] at heq
        obtain rfl : (["mcp", serverName, "headers", q.1], q.2) = pv := by
          simpa using heq
        exact hsec
      · rw [if_neg hsec] at heq
        simp at heq
    · simp at hmem
  · split at hmem
    · split at hmem
      · split at hmem
        · obtain rfl : pv = _ := List.mem_singleton.mp hmem
          assumption
        · simp at hmem
      · simp at hmem
    · simp at hmem

/-- Claim C9: placeholder detection is containment, not a whole-string
match: any header or secret string with a `\x7benv:...\x7d` substring
anywhere (scheme letters case-insensitive) is treated as already
sanitized, left unchanged, and every recorded override value is a true
secret string. -/
theorem claim9_placeholder_containment :
    (∀ (a m b : List Char) (e n v : Char),
      e.toLower = 'e' → n.toLower = 'n' → v.toLower = 'v' →
      m ≠ [] → (∀ c ∈ m, c ≠ '\x7d') →
      isSecretString (JVal.str (String.mk
        (a ++ '\x7b' :: e :: n :: v :: ':' :: (m ++ '\x7d' :: b)))) = false) ∧
    (∀ (serverName headerName : String) (val : JVal), isSecretString val = false →
      sanitizeHeaderValue serverName headerName val = val) ∧
    (∀ (serverName : String) (sc : Obj) (pv : List String × JVal),
      pv ∈ serverSecretPaths serverName sc → isSecretString pv.2 = true) := by
  refine ⟨?_, ?_, ?_⟩
  · intro a m b e n v he hn hv hm hmb
    have hmatch := envMatchHere_build e n v m b he hn hv hm hmb
    have hc : containsEnvPlaceholder ('\x7b' :: e :: n :: v :: ':' :: (m ++ '\x7d' :: b))
        = true := by
      simp [containsEnvPlaceholder, hmatch]
    have hfull := containsEnv_append_right a hc
    simp [isSecretString, hfull]
  · intro serverName headerName val h
    cases val <;> simp [sanitizeHeaderValue]
    intro hcontra
    rw [hcontra] at h
    simp at h
  · intro serverName sc pv hmem
    exact serverSecretPaths_secret hmem

/-- Witness for claim C9: a placeholder in the middle of other text. -/
theorem claim9_placeholder_containment_witness :
    isSecretString (JVal.str (String.mk
      ("secret-".data ++ '\x7b' :: 'e' :: 'n' :: 'v' :: ':' ::
        (['X'] ++ '\x7d' :: "-more".data)))) = false :=
  (claim9_placeholder_containment).1 "secret-".data ['X'] "-more".data 'e' 'n' 'v'
    rfl rfl rfl (by decide) (by decide)

/-! ### Claims C6 and C10: `stripOverrideKeys` -/

theorem distinctKeysObj_cons {k0 : String} {v : JVal} {rest : Obj}
    (h : distinctKeysObj ((k0, v) :: rest) = true) :
    containsKey rest k0 = false ∧ distinctKeysObj rest = true := by
  simpa [distinctKeysObj, Bool.not_eq_true'] using h

theorem stripEntries_cons_none {base : Obj} {k0 : String} (rv : JVal) (rest : Obj)
    (hcv : lookupKey base k0 = none) :
    stripEntries base ((k0, rv) :: rest) = stripEntries base rest := by
  rw [stripEntries, hcv]
  cases rv <;> rfl

theorem stripEntries_cons_objobj {base : Obj} {k0 : String} (cvo rvo : Obj) (rest : Obj)
    (hcv : lookupKey base k0 = some (JVal.obj cvo)) :
    stripEntries base ((k0, JVal.obj rvo) :: rest) =
      stripEntries (if (stripEntries cvo rvo).isEmpty then removeKey base k0
        else setKey base k0 (JVal.obj (stripEntries cvo rvo))) rest := by
  rw [stripEntries, hcv]
  rfl

theorem stripEntries_cons_remove {base : Obj} {k0 : String} {rv cv : JVal} (rest : Obj)
    (hcv : lookupKey base k0 = some cv)
    (hno : ∀ cvo rvo, cv = JVal.obj cvo → rv = JVal.obj rvo → False) :
    stripEntries base ((k0, rv) :: rest) = stripEntries (removeKey base k0) rest := by
  cases cv <;> cases rv <;>
    first
      | exact (hno _ _ rfl rfl).elim
      | (rw [stripEntries, hcv]; rfl)

theorem stripEntries_lookup :
    ∀ (r base : Obj), distinctKeysObj base = true → distinctKeysObj r = true →
    ∀ k : String,
    lookupKey (stripEntries base r) k = stripSpecLookup (lookupKey base k) (lookupKey r k)
  | [], base, _, _, k => by
    cases hlk : lookupKey base k <;> simp [stripEntries, stripSpecLookup, lookupKey, hlk]
  | (k0, rv) :: rest, base, hb, hr, k => by
    obtain ⟨hnc, hrrest⟩ := distinctKeysObj_cons hr
    by_cases hobj : ∃ cvo rvo, lookupKey base k0 = some (JVal.obj cvo) ∧ rv = JVal.obj rvo
    · obtain ⟨cvo, rvo, hcv, rfl⟩ := hobj
      rw [stripEntries_cons_objobj cvo rvo rest hcv]
      set base' := if (stripEntries cvo rvo).isEmpty then removeKey base k0
        else setKey base k0 (JVal.obj (stripEntries cvo rvo)) with hbase'
      have hb' : distinctKeysObj base' = true := by
        rw [hbase']
        cases (stripEntries cvo rvo).isEmpty
        · simpa using distinctKeysObj_setKey k0 (JVal.obj (stripEntries cvo rvo)) hb
        · simpa using distinctKeysObj_removeKey k0 hb
      rw [stripEntries_lookup rest base' hb' hrrest k]
      by_cases hk : k0 = k
      · subst hk
        rw [lookupKey_eq_none_of_not_contains hnc]
        have hrk : lookupKey ((k0, JVal.obj rvo) :: rest) k0 = some (JVal.obj rvo) := by
          simp [lookupKey]
        rw [hrk, hcv]
        have hbk : lookupKey base' k0 =
            if (stripEntries cvo rvo).isEmpty then none
            else some (JVal.obj (stripEntries cvo rvo)) := by
          rw [hbase']
          cases hie : (stripEntries cvo rvo).isEmpty
          · simpa using lookupKey_setKey_self base k0 (JVal.obj (stripEntries cvo rvo))
          · simpa using lookupKey_removeKey_self k0 hb
        rw [hbk]
        cases hie : (stripEntries cvo rvo).isEmpty <;>
          simp [stripSpecLookup, hie]
      · have hbk : lookupKey base' k = lookupKey base k := by
          rw [hbase']
          cases (stripEntries cvo rvo).isEmpty
          · simpa using lookupKey_setKey_ne base _ (fun hh => hk hh.symm)
          · simpa using lookupKey_removeKey_ne base (fun hh => hk hh.symm)
        have hrk : lookupKey ((k0, JVal.obj rvo) :: rest) k = lookupKey rest k := by
          simp [lookupKey, hk]
        rw [hbk, hrk]
    · cases hcv : lookupKey base k0 with
      | none =>
        rw [stripEntries_cons_none rv rest hcv, stripEntries_lookup rest base hb hrrest k]
        by_cases hk : k0 = k
        · subst hk
          rw [lookupKey_eq_none_of_not_contains hnc, hcv]
          have hrk : lookupKey ((k0, rv) :: rest) k0 = some rv := by simp [lookupKey]
          rw [hrk]
          simp [stripSpecLookup]
        · have hrk : lookupKey ((k0, rv) :: rest) k = lookupKey rest k := by
            simp [lookupKey, hk]
          rw [hrk]
      | some cv =>
        have hno : ∀ cvo rvo, cv = JVal.obj cvo → rv = JVal.obj rvo → False := by
          intro cvo rvo h1 h2
          exact hobj ⟨cvo, rvo, by rw [hcv, h1], h2⟩
        rw [stripEntries_cons_remove rest hcv hno,
          stripEntries_lookup rest (removeKey base k0) (distinctKeysObj_removeKey k0 hb)
            hrrest k]
        by_cases hk : k0 = k
        · subst hk
          rw [lookupKey_eq_none_of_not_contains hnc, lookupKey_removeKey_self k0 hb, hcv]
          have hrk : lookupKey ((k0, rv) :: rest) k0 = some rv := by simp [lookupKey]
          rw [hrk]
          cases cv with
          | obj cvo =>
            cases rv with
            | obj rvo => exact (hno _ _ rfl rfl).elim
            | str s => simp [stripSpecLookup]
            | num n => simp [stripSpecLookup]
            | bool b => simp [stripSpecLookup]
            | null => simp [stripSpecLookup]
            | arr l => simp [stripSpecLookup]
          | str s => cases rv <;> simp [stripSpecLookup]
          | num n => cases rv <;> simp [stripSpecLookup]
          | bool b => cases rv <;> simp [stripSpecLookup]
          | null => cases rv <;> simp [stripSpecLookup]
          | arr l => cases rv <;> simp [stripSpecLookup]
        · have hbk : lookupKey (removeKey base k0) k = lookupKey base k :=
            lookupKey_removeKey_ne base (fun hh => hk hh.symm)
          have hrk : lookupKey ((k0, rv) :: rest) k = lookupKey rest k := by
            simp [lookupKey, hk]
          rw [hbk, hrk]

theorem stripEntries_nil_left : ∀ ro : Obj, stripEntries [] ro = []
  | [] => rfl
  | (k, rv) :: rest => by
    rw [stripEntries, show lookupKey [] k = none from rfl,
      show stripStep [] k none rv = [] from by cases rv <;> rfl]
    exact stripEntries_nil_left rest

/-- Claim C6: `stripOverrideKeys` returns `base` unchanged when either
argument is not a plain mapping; otherwise the result holds, at every
key, exactly what §4.3 prescribes (`stripSpecLookup`): keys absent from
`toRemove` keep their value, keys of `toRemove` with no counterpart in
`base` are ignored, two plain mappings recurse with an emptied child
deleted from its parent, and the spec's example strips to the empty
mapping. -/
theorem claim6_strip_contract :
    (∀ b r : JVal, getPlainObject b = none ∨ getPlainObject r = none →
      stripOverrideKeys b r = b) ∧
    (∀ base r : Obj, distinctKeysObj base = true → distinctKeysObj r = true →
      ∀ k : String, lookupKey (stripEntries base r) k =
        stripSpecLookup (lookupKey base k) (lookupKey r k)) ∧
    (∀ base r : Obj, distinctKeysObj base = true → distinctKeysObj r = true →
      ∀ k : String, lookupKey base k = none →
      lookupKey (stripEntries base r) k = none) ∧
    (∀ base r : Obj, distinctKeysObj base = true → distinctKeysObj r = true →
      ∀ k : String, containsKey r k = false →
      lookupKey (stripEntries base r) k = lookupKey base k) ∧
    stripOverrideKeys
      (JVal.obj [("mcp", JVal.obj [("a", JVal.obj
        [("headers", JVal.obj [("X", JVal.str "1")])])])])
      (JVal.obj [("mcp", JVal.obj [("a", JVal.obj
        [("headers", JVal.obj [("X", JVal.str "1")])])])]) = JVal.obj [] := by
  refine ⟨?_, ?_, ?_, ?_, by rfl⟩
  · intro b r h
    cases b <;> cases r <;>
      first
        | rfl
        | (rcases h with h | h <;> simp [getPlainObject] at h)
  · intro base r hb hr k
    exact stripEntries_lookup r base hb hr k
  · intro base r hb hr k hnone
    rw [stripEntries_lookup r base hb hr k, hnone]
    cases lookupKey r k <;> simp [stripSpecLookup]
  · intro base r hb hr k hnc
    rw [stripEntries_lookup r base hb hr k, lookupKey_eq_none_of_not_contains hnc]
    cases lookupKey base k <;> simp [stripSpecLookup]

/-- Witness for claim C6 at concrete inputs. -/
theorem claim6_strip_contract_witness :
    stripOverrideKeys (JVal.str "x") (JVal.obj [("a", JVal.num 1)]) = JVal.str "x" ∧
    lookupKey (stripEntries [("keep", JVal.num 1), ("drop", JVal.num 2)]
        [("drop", JVal.num 9)]) "keep" =
      stripSpecLookup (lookupKey [("keep", JVal.num 1), ("drop", JVal.num 2)] "keep")
        (lookupKey [("drop", JVal.num 9)] "keep") :=
  ⟨claim6_strip_contract.1 (JVal.str "x") (JVal.obj [("a", JVal.num 1)]) (Or.inl rfl),
   claim6_strip_contract.2.1 [("keep", JVal.num 1), ("drop", JVal.num 2)]
     [("drop", JVal.num 9)] rfl rfl "keep"⟩

/-- Claim C10: in `stripOverrideKeys`, a key present in both sides whose
two values are not both plain mappings is deleted outright, whatever the
values are: a non-mapping removal value deletes a nested mapping, a
mapping removal value deletes a non-mapping value, and a key whose base
value is an already-empty mapping is deleted by any mapping removal
value. -/
theorem claim10_strip_mismatch_deletes :
    (∀ (base r : Obj) (k : String) (bv rv : JVal),
      distinctKeysObj base = true → distinctKeysObj r = true →
      lookupKey base k = some bv → lookupKey r k = some rv →
      (∀ bo ro, bv = JVal.obj bo → rv = JVal.obj ro → False) →
      lookupKey (stripEntries base r) k = none) ∧
    (∀ (base r : Obj) (k : String) (ro : Obj),
      distinctKeysObj base = true → distinctKeysObj r = true →
      lookupKey base k = some (JVal.obj []) → lookupKey r k = some (JVal.obj ro) →
      lookupKey (stripEntries base r) k = none) := by
  constructor
  · intro base r k bv rv hb hr hbv hrv hno
    rw [stripEntries_lookup r base hb hr k, hbv, hrv]
    cases bv with
    | obj bo =>
      cases rv with
      | obj ro => exact (hno _ _ rfl rfl).elim
      | str s => simp [stripSpecLookup]
      | num n => simp [stripSpecLookup]
      | bool b => simp [stripSpecLookup]
      | null => simp [stripSpecLookup]
      | arr l => simp [stripSpecLookup]
    | str s => cases rv <;> simp [stripSpecLookup]
    | num n => cases rv <;> simp [stripSpecLookup]
    | bool b => cases rv <;> simp [stripSpecLookup]
    | null => cases rv <;> simp [stripSpecLookup]
    | arr l => cases rv <;> simp [stripSpecLookup]
  · intro base r k ro hb hr hbv hrv
    rw [stripEntries_lookup r base hb hr k, hbv, hrv]
    simp [stripSpecLookup, stripEntries_nil_left]

/-! ### Claim C7: graceful handling of malformed structure -/

/-- Claim C7: extraction is total and treats malformed or absent
sub-structure as nothing to extract: a missing or non-mapping `mcp`
returns the document unchanged with empty overrides, a server whose
`headers`/`oauth` are missing or not mappings contributes no overrides
and is left unchanged, and only non-empty non-placeholder strings are
ever extracted.  (Inputs that JSON serialization cannot clone do not
exist in the JSON embedding; in JavaScript the clone throws a
descriptive `TypeError` on them.) -/
theorem claim7_graceful_handling :
    (∀ D : Obj, ∃ san ov, extractMcpSecrets D = (san, ov)) ∧
    (∀ D : Obj, lookupKey D "mcp" = none → extractMcpSecrets D = (D, [])) ∧
    (∀ (D : Obj) (v : JVal), lookupKey D "mcp" = some v → getPlainObject v = none →
      extractMcpSecrets D = (D, [])) ∧
    (∀ (serverName : String) (sc : Obj),
      plainObjectAt sc "headers" = none → plainObjectAt sc "oauth" = none →
      serverSecretPaths serverName sc = [] ∧ sanitizeServer serverName sc = sc) ∧
    (∀ (serverName : String) (sc : Obj) (pv : List String × JVal),
      pv ∈ serverSecretPaths serverName sc → isSecretString pv.2 = true) := by
  refine ⟨?_, ?_, ?_, ?_, ?_⟩
  · intro D
    exact ⟨_, _, rfl⟩
  · intro D h
    simp [extractMcpSecrets, sanitizeConfig, configSecretPaths, h, substPaths]
  · intro D v hv hpo
    cases v <;> simp [getPlainObject] at hpo <;>
      simp [extractMcpSecrets, sanitizeConfig, configSecretPaths, hv, substPaths]
  · intro serverName sc hh ho
    have hhobj : ∀ hs, lookupKey sc "headers" = some (JVal.obj hs) → False := by
      intro hs hx
      simp [plainObjectAt, hx] at hh
    have hoobj : ∀ oa, lookupKey sc "oauth" = some (JVal.obj oa) → False := by
      intro oa hx
      simp [plainObjectAt, hx] at ho
    have h1 : headerSecretPaths serverName sc = [] := by
      unfold headerSecretPaths
      cases hx : lookupKey sc "headers" with
      | none => rfl
      | some x =>
        cases x with
        | obj hs => exact (hhobj _ hx).elim
        | str s => rfl
        | num n => rfl
        | bool b => rfl
        | null => rfl
        | arr l => rfl
    have h2 : oauthSecretPaths serverName sc = [] := by
      unfold oauthSecretPaths
      cases hy : lookupKey sc "oauth" with
      | none => rfl
      | some y =>
        cases y with
        | obj oa => exact (hoobj _ hy).elim
        | str s => rfl
        | num n => rfl
        | bool b => rfl
        | null => rfl
        | arr l => rfl
    have h3 : sanitizeServerHeaders serverName sc = sc := by
      unfold sanitizeServerHeaders
      cases hx : lookupKey sc "headers" with
      | none => rfl
      | some x =>
        cases x with
        | obj hs => exact (hhobj _ hx).elim
        | str s => rfl
        | num n => rfl
        | bool b => rfl
        | null => rfl
        | arr l => rfl
    have h4 : sanitizeOauth serverName sc = sc := by
      unfold sanitizeOauth
      cases hy : lookupKey sc "oauth" with
      | none => rfl
      | some y =>
        cases y with
        | obj oa => exact (hoobj _ hy).elim
        | str s => rfl
        | num n => rfl
        | bool b => rfl
        | null => rfl
        | arr l => rfl
    exact ⟨by simp [serverSecretPaths, h1, h2], by rw [sanitizeServer, h3, h4]⟩
  · intro serverName sc pv hmem
    exact serverSecretPaths_secret hmem

/-- Witness for claim C7 at concrete inputs. -/
theorem claim7_graceful_handling_witness :
    extractMcpSecrets [("other", JVal.num 1)] = ([("other", JVal.num 1)], []) ∧
    extractMcpSecrets [("mcp", JVal.str "oops")] = ([("mcp", JVal.str "oops")], []) ∧
    serverSecretPaths "s" [("headers", JVal.str "bad"), ("url", JVal.str "u")] = [] :=
  ⟨claim7_graceful_handling.2.1 [("other", JVal.num 1)] rfl,
   claim7_graceful_handling.2.2.1 [("mcp", JVal.str "oops")] (JVal.str "oops") rfl rfl,
   (claim7_graceful_handling.2.2.2.1 "s"
     [("headers", JVal.str "bad"), ("url", JVal.str "u")] rfl rfl).1⟩

/-! ### Claim C5: idempotence on already-sanitized documents -/

theorem lookupKey_some_mem : ∀ {o : Obj} {k : String} {v : JVal},
    lookupKey o k = some v → (k, v) ∈ o
  | [], _, _, h => by simp [lookupKey] at h
  | (k1, w) :: rest, k, v, h => by
    by_cases hk : k1 = k
    · subst hk
      simp only [lookupKey, if_pos rfl, Option.some.injEq] at h
      cases h
      exact List.mem_cons_self _ _
    · simp only [lookupKey, if_neg hk] at h
      exact List.mem_cons_of_mem _ (lookupKey_some_mem h)

theorem isSecretString_of_sanitized {v : JVal} (h : valueSanitized v = true) :
    isSecretString v = false := by
  cases v with
  | str s =>
    simp only [valueSanitized] at h
    simp [isSecretString, h]
  | num n => simp [valueSanitized] at h
  | bool b => simp [valueSanitized] at h
  | null => simp [valueSanitized] at h
  | arr l => simp [valueSanitized] at h
  | obj o => simp [valueSanitized] at h

theorem sanitizeHeaderValue_nonsecret {serverName headerName : String} {v : JVal}
    (h : isSecretString v = false) : sanitizeHeaderValue serverName headerName v = v := by
  cases v <;> simp [sanitizeHeaderValue, h]

theorem sanitizeHeaders_nonsecret_id (serverName : String) :
    ∀ hs : Obj, (∀ p ∈ hs, isSecretString p.2 = false) →
    sanitizeHeaders serverName hs = hs
  | [], _ => rfl
  | (k, v) :: rest, h => by
    have h1 := h (k, v) (List.mem_cons_self _ _)
    have ht := sanitizeHeaders_nonsecret_id serverName rest
      (fun p hp => h p (List.mem_cons_of_mem _ hp))
    show (k, sanitizeHeaderValue serverName k v) :: sanitizeHeaders serverName rest
      = (k, v) :: rest
    rw [sanitizeHeaderValue_nonsecret h1, ht]

theorem headerSecretPaths_nil {serverName : String} {sc hs : Obj}
    (hx : lookupKey sc "headers" = some (JVal.obj hs))
    (hnil : headerSecretPaths serverName sc = []) :
    ∀ p ∈ hs, isSecretString p.2 = false := by
  intro p hp
  unfold headerSecretPaths at hnil
  simp only [hx] at hnil
  have hnone := List.filterMap_eq_nil_iff.mp hnil p hp
  by_cases hsec : isSecretString p.2 = true
  · rw [if_pos hsec] at hnone
    simp at hnone
  · simpa using hsec

theorem sanitizeServerHeaders_id {serverName : String} {sc : Obj}
    (hnil : headerSecretPaths serverName sc = []) :
    sanitizeServerHeaders serverName sc = sc := by
  unfold sanitizeServerHeaders
  split
  · rename_i hs hx
    rw [sanitizeHeaders_nonsecret_id serverName hs (headerSecretPaths_nil hx hnil),
      setKey_eq_self hx]
  · rfl

theorem sanitizeOauth_id {serverName : String} {sc : Obj}
    (hnil : oauthSecretPaths serverName sc = []) :
    sanitizeOauth serverName sc = sc := by
  unfold sanitizeOauth
  split
  · rename_i oa hy
    split
    · rename_i cs hz
      have hfalse : isSecretString cs = false := by
        unfold oauthSecretPaths at hnil
        simp only [hy, hz] at hnil
        by_cases hsec : isSecretString cs = true
        · rw [if_pos hsec] at hnil
          simp at hnil
        · simpa using hsec
      simp [hfalse]
    · rfl
  · rfl

theorem serverNoSecrets_id {serverName : String} {sc : Obj}
    (hnil : serverSecretPaths serverName sc = []) :
    sanitizeServer serverName sc = sc := by
  unfold serverSecretPaths at hnil
  obtain ⟨h1, h2⟩ := List.append_eq_nil.mp hnil
  rw [sanitizeServer, sanitizeServerHeaders_id h1, sanitizeOauth_id h2]

theorem serverAllSanitized_noSecrets {serverName : String} {sc : Obj}
    (h : serverAllSanitized sc = true) : serverSecretPaths serverName sc = [] := by
  simp only [serverAllSanitized, Bool.and_eq_true] at h
  obtain ⟨hH, hO⟩ := h
  have e1 : headerSecretPaths serverName sc = [] := by
    unfold headerSecretPaths
    split
    · rename_i hs hx
      simp only [hx] at hH
      have hall := List.all_eq_true.mp hH
      rw [List.filterMap_eq_nil_iff]
      intro p hp
      simp [isSecretString_of_sanitized (hall p hp)]
    · rfl
  have e2 : oauthSecretPaths serverName sc = [] := by
    unfold oauthSecretPaths
    split
    · rename_i oa hy
      simp only [hy] at hO
      split
      · rename_i cs hz
        simp only [hz] at hO
        simp [isSecretString_of_sanitized hO]
      · rfl
    · rfl
  simp [serverSecretPaths, e1, e2]

/-- Claim C5: on a document whose header values and oauth client secrets
all already carry an environment placeholder, extraction returns the
document unchanged with an empty override tree. -/
theorem claim5_idempotence (D : Obj) (h : allSanitized D = true) :
    extractMcpSecrets D = (D, []) := by
  unfold allSanitized at h
  unfold extractMcpSecrets sanitizeConfig configSecretPaths
  cases hm : lookupKey D "mcp" with
  | none => rfl
  | some v =>
    cases v with
    | obj mcp =>
      rw [hm] at h
      simp only [List.all_eq_true] at h
      have hmap : ∀ (l : Obj),
          (∀ p ∈ l, (match p.2 with
            | JVal.obj sc => serverAllSanitized sc
            | _ => true) = true) →
          l.map (fun p => (p.1, sanitizeServerValue p.1 p.2)) = l := by
        intro l hl
        induction l with
        | nil => rfl
        | cons q rest ih =>
          obtain ⟨s, v⟩ := q
          have hq := hl (s, v) (List.mem_cons_self _ _)
          have ht := ih (fun p hp => hl p (List.mem_cons_of_mem _ hp))
          rw [List.map_cons, ht]
          cases v with
          | obj sc =>
            simp at hq
            simp [sanitizeServerValue, serverNoSecrets_id (serverAllSanitized_noSecrets hq)]
          | str s2 => rfl
          | num n => rfl
          | bool b => rfl
          | null => rfl
          | arr l2 => rfl
      have hpaths : ∀ (l : Obj),
          (∀ p ∈ l, (match p.2 with
            | JVal.obj sc => serverAllSanitized sc
            | _ => true) = true) →
          l.foldr (fun p acc => serverPathsValue p.1 p.2 ++ acc) [] = [] := by
        intro l hl
        induction l with
        | nil => rfl
        | cons q rest ih =>
          obtain ⟨s, v⟩ := q
          have hq := hl (s, v) (List.mem_cons_self _ _)
          have ht := ih (fun p hp => hl p (List.mem_cons_of_mem _ hp))
          rw [List.foldr_cons, ht]
          cases v with
          | obj sc =>
            simp at hq
            simp [serverPathsValue, serverAllSanitized_noSecrets hq]
          | str s2 => rfl
          | num n => rfl
          | bool b => rfl
          | null => rfl
          | arr l2 => rfl
      show (setKey D "mcp" (JVal.obj (mcp.map (fun p => (p.1, sanitizeServerValue p.1 p.2)))),
        substPaths [] (mcp.foldr (fun p acc => serverPathsValue p.1 p.2 ++ acc) [])) = (D, [])
      rw [hmap mcp h, hpaths mcp h, setKey_eq_self hm]
      rfl
    | str s => rfl
    | num n => rfl
    | bool b => rfl
    | null => rfl
    | arr l => rfl

/-- Witness for claim C5: a document whose only header value is already a
placeholder. -/
theorem claim5_idempotence_witness :
    extractMcpSecrets
      [("mcp", JVal.obj [("context7", JVal.obj [("headers",
        JVal.obj [("CONTEXT7_API_KEY", JVal.str "\x7benv:CONTEXT7_API_KEY\x7d")])])])] =
      ([("mcp", JVal.obj [("context7", JVal.obj [("headers",
        JVal.obj [("CONTEXT7_API_KEY", JVal.str "\x7benv:CONTEXT7_API_KEY\x7d")])])])], []) :=
  claim5_idempotence _ (by rfl)

/-! ### Claim C2: non-interference outside the secret paths -/

theorem lookupKey_sanitizeServerHeaders_ne {serverName : String} {sc : Obj} {k : String}
    (hk : k ≠ "headers") :
    lookupKey (sanitizeServerHeaders serverName sc) k = lookupKey sc k := by
  unfold sanitizeServerHeaders
  split
  · exact lookupKey_setKey_ne sc _ hk
  · rfl

theorem lookupKey_sanitizeOauth_ne {serverName : String} {sc : Obj} {k : String}
    (hk : k ≠ "oauth") :
    lookupKey (sanitizeOauth serverName sc) k = lookupKey sc k := by
  unfold sanitizeOauth
  split
  · split
    · split
      · exact lookupKey_setKey_ne sc _ hk
      · rfl
    · rfl
  · rfl

theorem lookupKey_sanitizeServer_ne {serverName : String} {sc : Obj} {k : String}
    (h1 : k ≠ "headers") (h2 : k ≠ "oauth") :
    lookupKey (sanitizeServer serverName sc) k = lookupKey sc k := by
  rw [sanitizeServer, lookupKey_sanitizeOauth_ne h2, lookupKey_sanitizeServerHeaders_ne h1]

theorem lookupKey_sanitizeServer_headers {serverName : String} {sc : Obj} :
    lookupKey (sanitizeServer serverName sc) "headers" =
      match lookupKey sc "headers" with
      | some (JVal.obj hs) => some (JVal.obj (sanitizeHeaders serverName hs))
      | other => other := by
  rw [sanitizeServer, lookupKey_sanitizeOauth_ne (by decide)]
  unfold sanitizeServerHeaders
  split
  · rename_i hs hx
    rw [lookupKey_setKey_self]
  · rename_i hno
    cases hx : lookupKey sc "headers" with
    | none => rfl
    | some x =>
      cases x with
      | obj hs => exact (hno hs hx).elim
      | str s => rfl
      | num n => rfl
      | bool b => rfl
      | null => rfl
      | arr l => rfl

theorem mem_serverSecretPaths {serverName : String} {sc : Obj} {pv : List String × JVal} :
    pv ∈ serverSecretPaths serverName sc ↔
      (∃ hs h v, lookupKey sc "headers" = some (JVal.obj hs) ∧ (h, v) ∈ hs ∧
        isSecretString v = true ∧ pv = (["mcp", serverName, "headers", h], v)) ∨
      (∃ oa cs, lookupKey sc "oauth" = some (JVal.obj oa) ∧
        lookupKey oa "clientSecret" = some cs ∧ isSecretString cs = true ∧
        pv = (["mcp", serverName, "oauth", "clientSecret"], cs)) := by
  constructor
  · intro hmem
    unfold serverSecretPaths headerSecretPaths oauthSecretPaths at hmem
    rcases List.mem_append.mp hmem with hmem | hmem
    · left
      split at hmem
      · rename_i hs hx
        obtain ⟨q, hq, heq⟩ := List.mem_filterMap.mp hmem
        by_cases hsec : isSecretString q.2 = true
        · rw [if_pos hsec] at heq
          obtain ⟨h1, h2⟩ := q
          exact ⟨hs, h1, h2, hx, hq, hsec, by simpa using heq.symm⟩
        · rw [if_neg hsec] at heq
          simp at heq
      · simp at hmem
    · right
      split at hmem
      · rename_i oa hy
        split at hmem
        · rename_i cs hz
          split at hmem
          · rename_i hsec
            exact ⟨oa, cs, hy, hz, hsec, List.mem_singleton.mp hmem⟩
          · simp at hmem
        · simp at hmem
      · simp at hmem
  · rintro (⟨hs, h, v, hx, hm, hsec, rfl⟩ | ⟨oa, cs, hy, hz, hsec, rfl⟩)
    · apply List.mem_append_left
      unfold headerSecretPaths
      rw [hx]
      exact List.mem_filterMap.mpr ⟨(h, v), hm, by simp [hsec]⟩
    · apply List.mem_append_right
      unfold oauthSecretPaths
      simp [hy, hz, hsec]

theorem mem_foldr_paths :
    ∀ (l : Obj) (pv : List String × JVal),
    pv ∈ l.foldr (fun p acc => serverPathsValue p.1 p.2 ++ acc) [] ↔
      ∃ q ∈ l, pv ∈ serverPathsValue q.1 q.2
  | [], pv => by simp
  | q0 :: rest, pv => by
    simp only [List.foldr_cons, List.mem_append, mem_foldr_paths rest pv, List.mem_cons]
    constructor
    · rintro (h | ⟨q, hq, hm⟩)
      · exact ⟨q0, Or.inl rfl, h⟩
      · exact ⟨q, Or.inr hq, hm⟩
    · rintro ⟨q, (rfl | hq), hm⟩
      · exact Or.inl hm
      · exact Or.inr ⟨q, hq, hm⟩

theorem mem_configSecretPaths {D : Obj} {pv : List String × JVal} :
    pv ∈ configSecretPaths D ↔
      ∃ mcp, lookupKey D "mcp" = some (JVal.obj mcp) ∧
        ∃ q ∈ mcp, pv ∈ serverPathsValue q.1 q.2 := by
  unfold configSecretPaths
  cases hm : lookupKey D "mcp" with
  | none => simp
  | some v =>
    cases v with
    | obj mcp =>
      rw [mem_foldr_paths]
      constructor
      · intro h
        exact ⟨mcp, rfl, h⟩
      · rintro ⟨mcp', heq, h⟩
        obtain rfl : mcp = mcp' := by
          injection heq with heq2
          injection heq2
        exact h
    | str s => simp
    | num n => simp
    | bool b => simp
    | null => simp
    | arr l => simp

theorem serverSecretPaths_starts {serverName : String} {sc : Obj} {pv : List String × JVal}
    (h : pv ∈ serverSecretPaths serverName sc) :
    ∃ tail, pv.1 = "mcp" :: serverName :: tail := by
  rcases mem_serverSecretPaths.mp h with ⟨hs, hh, v, _, _, _, rfl⟩ | ⟨oa, cs, _, _, _, rfl⟩
  · exact ⟨["headers", hh], rfl⟩
  · exact ⟨["oauth", "clientSecret"], rfl⟩

/-- Sanitization maps string header values to string values. -/
theorem sanitizeHeaderValue_str (serverName headerName u : String) :
    ∃ t, sanitizeHeaderValue serverName headerName (JVal.str u) = JVal.str t := by
  show (∃ t, (if isSecretString (JVal.str u) = true then
      JVal.str (buildHeaderPlaceholder u (buildHeaderEnvVar serverName headerName) headerName)
    else JVal.str u) = JVal.str t)
  by_cases h : isSecretString (JVal.str u) = true
  · exact ⟨_, by rw [if_pos h]⟩
  · exact ⟨u, by rw [if_neg h]⟩

theorem lookupPath_congr_head {o1 o2 : Obj} {k : String} (q : List String)
    (h : lookupKey o1 k = lookupKey o2 k) :
    lookupPath o1 (k :: q) = lookupPath o2 (k :: q) := by
  cases q with
  | nil => exact h
  | cons k2 r => simp only [lookupPath, h]

theorem lookupKey_sanitizeServer_oauth {serverName : String} {sc : Obj} :
    lookupKey (sanitizeServer serverName sc) "oauth" =
      match lookupKey sc "oauth" with
      | some (JVal.obj oa) =>
        match lookupKey oa "clientSecret" with
        | some cs =>
          if isSecretString cs then
            some (JVal.obj (setKey oa "clientSecret"
              (JVal.str (envPlaceholder (buildEnvVar serverName "OAUTH_CLIENT_SECRET")))))
          else some (JVal.obj oa)
        | none => some (JVal.obj oa)
      | other => other := by
  rw [sanitizeServer]
  have hpre : lookupKey (sanitizeServerHeaders serverName sc) "oauth" = lookupKey sc "oauth" :=
    lookupKey_sanitizeServerHeaders_ne (by decide)
  unfold sanitizeOauth
  rw [hpre]
  split
  · rename_i oa hy
    split
    · rename_i cs hz
      split
      · rw [lookupKey_setKey_self]
      · rw [hpre, hy]
    · rw [hpre, hy]
  · rw [hpre]

theorem isSecretString_str {cs : JVal} (h : isSecretString cs = true) :
    ∃ u, cs = JVal.str u := by
  cases cs with
  | str u => exact ⟨u, rfl⟩
  | num n => simp [isSecretString] at h
  | bool b => simp [isSecretString] at h
  | null => simp [isSecretString] at h
  | arr l => simp [isSecretString] at h
  | obj o => simp [isSecretString] at h

theorem headers_frame (serverName : String) (hs : Obj) (h : String) (rest4 : List String)
    (hex : rest4 = [] → ∀ v, lookupKey hs h = some v → isSecretString v = false) :
    lookupPath (sanitizeHeaders serverName hs) (h :: rest4) = lookupPath hs (h :: rest4) := by
  have hstep : lookupKey (sanitizeHeaders serverName hs) h =
      (lookupKey hs h).map (sanitizeHeaderValue serverName h) :=
    lookupKey_map_entry _ hs h
  cases hv : lookupKey hs h with
  | none =>
    apply lookupPath_congr_head
    rw [hstep, hv]
    rfl
  | some w =>
    cases rest4 with
    | nil =>
      show lookupKey (sanitizeHeaders serverName hs) h = lookupKey hs h
      rw [hstep, hv]
      simp [sanitizeHeaderValue_nonsecret (hex rfl w hv)]
    | cons x r =>
      cases w with
      | obj i =>
        apply lookupPath_congr_head
        rw [hstep, hv]
        simp [sanitizeHeaderValue_nonsecret (show isSecretString (JVal.obj i) = false from rfl)]
      | str u =>
        obtain ⟨t, ht⟩ := sanitizeHeaderValue_str serverName h u
        have h1 : lookupPath (sanitizeHeaders serverName hs) (h :: x :: r) = none := by
          simp only [lookupPath]
          rw [hstep, hv]
          simp [ht]
        have h2 : lookupPath hs (h :: x :: r) = none := by
          simp only [lookupPath, hv]
        rw [h1, h2]
      | num n =>
        apply lookupPath_congr_head
        rw [hstep, hv]
        simp [sanitizeHeaderValue_nonsecret (show isSecretString (JVal.num n) = false from rfl)]
      | bool b =>
        apply lookupPath_congr_head
        rw [hstep, hv]
        simp [sanitizeHeaderValue_nonsecret (show isSecretString (JVal.bool b) = false from rfl)]
      | null =>
        apply lookupPath_congr_head
        rw [hstep, hv]
        simp [sanitizeHeaderValue_nonsecret (show isSecretString JVal.null = false from rfl)]
      | arr l =>
        apply lookupPath_congr_head
        rw [hstep, hv]
        simp [sanitizeHeaderValue_nonsecret (show isSecretString (JVal.arr l) = false from rfl)]

theorem setKey_clientSecret_frame (oa : Obj) (ph : String) {cs : JVal}
    (hz : lookupKey oa "clientSecret" = some cs) (hstr : ∃ u, cs = JVal.str u)
    (x : String) (rest4 : List String) (hne : x = "clientSecret" → rest4 ≠ []) :
    lookupPath (setKey oa "clientSecret" (JVal.str ph)) (x :: rest4) =
      lookupPath oa (x :: rest4) := by
  by_cases hx : x = "clientSecret"
  · subst hx
    obtain ⟨u, rfl⟩ := hstr
    cases rest4 with
    | nil => exact absurd rfl (hne rfl)
    | cons y r5 =>
      have h1 : lookupPath (setKey oa "clientSecret" (JVal.str ph))
          ("clientSecret" :: y :: r5) = none := by
        simp only [lookupPath, lookupKey_setKey_self]
      have h2 : lookupPath oa ("clientSecret" :: y :: r5) = none := by
        simp only [lookupPath, hz]
      rw [h1, h2]
  · apply lookupPath_congr_head
    exact lookupKey_setKey_ne oa _ hx

theorem server_frame (serverName : String) (sc : Obj) (sec : String) (rest3 : List String)
    (hex : ∀ pv ∈ serverSecretPaths serverName sc,
      ¬ startsPath ("mcp" :: serverName :: sec :: rest3) pv.1) :
    lookupPath (sanitizeServer serverName sc) (sec :: rest3) = lookupPath sc (sec :: rest3) := by
  by_cases hsecH : sec = "headers"
  · subst hsecH
    cases hx : lookupKey sc "headers" with
    | none =>
      apply lookupPath_congr_head
      simp only [lookupKey_sanitizeServer_headers, hx]
    | some w =>
      cases w with
      | obj hs =>
        cases rest3 with
        | nil =>
          show lookupKey (sanitizeServer serverName sc) "headers" = lookupKey sc "headers"
          simp only [lookupKey_sanitizeServer_headers, hx]
          have hns : ∀ p ∈ hs, isSecretString p.2 = false := by
            intro p hp
            by_cases hss : isSecretString p.2 = true
            · exact ((hex (["mcp", serverName, "headers", p.1], p.2)
                (mem_serverSecretPaths.mpr (Or.inl ⟨hs, p.1, p.2, hx, hp, hss, rfl⟩))
                ⟨[p.1], rfl⟩)).elim
            · simpa using hss
          rw [sanitizeHeaders_nonsecret_id serverName hs hns]
        | cons h rest4 =>
          have hl : lookupKey (sanitizeServer serverName sc) "headers"
              = some (JVal.obj (sanitizeHeaders serverName hs)) := by
            simp only [lookupKey_sanitizeServer_headers, hx]
          simp only [lookupPath, hl, hx]
          apply headers_frame
          intro hre v hlk
          by_cases hss : isSecretString v = true
          · subst hre
            exact ((hex (["mcp", serverName, "headers", h], v)
              (mem_serverSecretPaths.mpr
                (Or.inl ⟨hs, h, v, hx, lookupKey_some_mem hlk, hss, rfl⟩))
              ⟨[], by simp⟩)).elim
          · simpa using hss
      | str u =>
        apply lookupPath_congr_head
        simp only [lookupKey_sanitizeServer_headers, hx]
      | num n =>
        apply lookupPath_congr_head
        simp only [lookupKey_sanitizeServer_headers, hx]
      | bool b =>
        apply lookupPath_congr_head
        simp only [lookupKey_sanitizeServer_headers, hx]
      | null =>
        apply lookupPath_congr_head
        simp only [lookupKey_sanitizeServer_headers, hx]
      | arr l =>
        apply lookupPath_congr_head
        simp only [lookupKey_sanitizeServer_headers, hx]
  · by_cases hsecO : sec = "oauth"
    · subst hsecO
      cases hy : lookupKey sc "oauth" with
      | none =>
        apply lookupPath_congr_head
        simp only [lookupKey_sanitizeServer_oauth, hy]
      | some w =>
        cases w with
        | obj oa =>
          cases hz : lookupKey oa "clientSecret" with
          | none =>
            apply lookupPath_congr_head
            simp only [lookupKey_sanitizeServer_oauth, hy, hz]
          | some cs =>
            by_cases hss : isSecretString cs = true
            · have hmemo : (["mcp", serverName, "oauth", "clientSecret"], cs)
                  ∈ serverSecretPaths serverName sc :=
                mem_serverSecretPaths.mpr (Or.inr ⟨oa, cs, hy, hz, hss, rfl⟩)
              have hl : lookupKey (sanitizeServer serverName sc) "oauth" =
                  some (JVal.obj (setKey oa "clientSecret"
                    (JVal.str (envPlaceholder
                      (buildEnvVar serverName "OAUTH_CLIENT_SECRET"))))) := by
                simp [lookupKey_sanitizeServer_oauth, hy, hz, hss]
              cases rest3 with
              | nil => exact ((hex _ hmemo ⟨["clientSecret"], rfl⟩)).elim
              | cons x rest4 =>
                simp only [lookupPath, hl, hy]
                apply setKey_clientSecret_frame oa _ hz (isSecretString_str hss) x rest4
                intro hxe
                subst hxe
                cases rest4 with
                | nil => exact ((hex _ hmemo ⟨[], by simp⟩)).elim
                | cons y r5 => simp
            · apply lookupPath_congr_head
              simp [lookupKey_sanitizeServer_oauth, hy, hz, hss]
        | str u =>
          apply lookupPath_congr_head
          simp only [lookupKey_sanitizeServer_oauth, hy]
        | num n =>
          apply lookupPath_congr_head
          simp only [lookupKey_sanitizeServer_oauth, hy]
        | bool b =>
          apply lookupPath_congr_head
          simp only [lookupKey_sanitizeServer_oauth, hy]
        | null =>
          apply lookupPath_congr_head
          simp only [lookupKey_sanitizeServer_oauth, hy]
        | arr l =>
          apply lookupPath_congr_head
          simp only [lookupKey_sanitizeServer_oauth, hy]
    · apply lookupPath_congr_head
      exact lookupKey_sanitizeServer_ne hsecH hsecO

theorem sanitizeMap_id : ∀ (l : Obj), (∀ q ∈ l, serverPathsValue q.1 q.2 = []) →
    l.map (fun q => (q.1, sanitizeServerValue q.1 q.2)) = l
  | [], _ => rfl
  | (s, v) :: rest, h => by
    have h1 := h (s, v) (List.mem_cons_self _ _)
    have ht := sanitizeMap_id rest (fun q hq => h q (List.mem_cons_of_mem _ hq))
    rw [List.map_cons, ht]
    cases v with
    | obj sc =>
      have hnil : serverSecretPaths s sc = [] := by simpa [serverPathsValue] using h1
      simp [sanitizeServerValue, serverNoSecrets_id hnil]
    | str s2 => rfl
    | num n => rfl
    | bool b => rfl
    | null => rfl
    | arr l2 => rfl

theorem mem_containsKey : ∀ {l : Obj} {k : String} {v : JVal},
    (k, v) ∈ l → containsKey l k = true
  | [], _, _, h => by simp at h
  | (k1, w) :: rest, k, v, h => by
    rcases List.mem_cons.mp h with h | h
    · obtain ⟨rfl, rfl⟩ : k1 = k ∧ w = v := by
        injection h.symm with h1 h2
        exact ⟨h1, h2⟩
      simp [containsKey]
    · simp [containsKey, mem_containsKey h]

theorem lookupKey_of_mem_distinct : ∀ {l : Obj} {k : String} {v : JVal},
    distinctKeysObj l = true → (k, v) ∈ l → lookupKey l k = some v
  | [], _, _, _, h => by simp at h
  | (k1, w) :: rest, k, v, hd, h => by
    obtain ⟨hnc, hdrest⟩ := distinctKeysObj_cons hd
    rcases List.mem_cons.mp h with h | h
    · obtain ⟨rfl, rfl⟩ : k1 = k ∧ w = v := by
        injection h.symm with h1 h2
        exact ⟨h1, h2⟩
      simp [lookupKey]
    · have hk : k1 ≠ k := by
        intro he
        subst he
        rw [mem_containsKey h] at hnc
        simp at hnc
      simp [lookupKey, hk, lookupKey_of_mem_distinct hdrest h]

theorem wfConfig_root {D mcp : Obj} (hwf : wfConfig D = true)
    (hm : lookupKey D "mcp" = some (JVal.obj mcp)) :
    distinctKeysObj D = true ∧ distinctKeysObj mcp = true := by
  unfold wfConfig at hwf
  simp only [hm, Bool.and_eq_true] at hwf
  exact ⟨hwf.1, hwf.2.1⟩

theorem wfConfig_server {D mcp : Obj} {s : String} {sc : Obj}
    (hwf : wfConfig D = true) (hm : lookupKey D "mcp" = some (JVal.obj mcp))
    (hq : (s, JVal.obj sc) ∈ mcp) :
    distinctKeysObj sc = true ∧
    (∀ hs, lookupKey sc "headers" = some (JVal.obj hs) → distinctKeysObj hs = true) ∧
    (∀ oa, lookupKey sc "oauth" = some (JVal.obj oa) → distinctKeysObj oa = true) := by
  unfold wfConfig at hwf
  simp only [hm, Bool.and_eq_true, List.all_eq_true] at hwf
  have hsrv := hwf.2.2 (s, JVal.obj sc) hq
  simp only [Bool.and_eq_true] at hsrv
  refine ⟨hsrv.1.1, ?_, ?_⟩
  · intro hs hx
    have := hsrv.1.2
    simp only [hx] at this
    exact this
  · intro oa hy
    have := hsrv.2
    simp only [hy] at this
    exact this

/-- Claim C2: non-interference.  Every path that does not start any
recorded secret path reads identically in the input and the sanitized
config; and every recorded override entry sits at a
`mcp.<server>.headers.<name>` or `mcp.<server>.oauth.clientSecret` path
holding exactly the original secret value of the input document. -/
theorem claim2_non_interference :
    (∀ (D : Obj) (p : List String),
      (∀ pv ∈ configSecretPaths D, ¬ startsPath p pv.1) →
      lookupPath (sanitizeConfig D) p = lookupPath D p) ∧
    (∀ (D : Obj), wfConfig D = true → ∀ pv ∈ configSecretPaths D,
      lookupPath D pv.1 = some pv.2 ∧ isSecretString pv.2 = true ∧
      ((∃ s h2, pv.1 = ["mcp", s, "headers", h2]) ∨
       (∃ s, pv.1 = ["mcp", s, "oauth", "clientSecret"]))) := by
  constructor
  · intro D p hex
    cases hm : lookupKey D "mcp" with
    | none =>
      have hsan : sanitizeConfig D = D := by
        unfold sanitizeConfig
        rw [hm]
      rw [hsan]
    | some v =>
      cases v with
      | obj mcp =>
        have hsan : sanitizeConfig D =
            setKey D "mcp" (JVal.obj (mcp.map (fun q => (q.1, sanitizeServerValue q.1 q.2)))) := by
          unfold sanitizeConfig
          rw [hm]
        rw [hsan]
        cases p with
        | nil => rfl
        | cons k rest =>
          by_cases hk : k = "mcp"
          · subst hk
            have hlk : lookupKey
                (setKey D "mcp" (JVal.obj (mcp.map (fun q => (q.1, sanitizeServerValue q.1 q.2)))))
                "mcp" = some (JVal.obj (mcp.map (fun q => (q.1, sanitizeServerValue q.1 q.2)))) :=
              lookupKey_setKey_self D _ _
            cases rest with
            | nil =>
              show lookupKey _ "mcp" = lookupKey D "mcp"
              rw [hlk, hm]
              have hns : ∀ q ∈ mcp, serverPathsValue q.1 q.2 = [] := by
                intro q hq
                cases hqe : serverPathsValue q.1 q.2 with
                | nil => rfl
                | cons pv t =>
                  exfalso
                  have hpv : pv ∈ serverPathsValue q.1 q.2 := by
                    rw [hqe]
                    exact List.mem_cons_self _ _
                  have hmem : pv ∈ configSecretPaths D :=
                    mem_configSecretPaths.mpr ⟨mcp, hm, q, hq, hpv⟩
                  apply hex pv hmem
                  obtain ⟨sc, hsc⟩ : ∃ sc, q.2 = JVal.obj sc := by
                    cases hq2 : q.2 <;>
                      first
                        | exact ⟨_, rfl⟩
                        | (rw [hq2] at hpv; simp [serverPathsValue] at hpv)
                  rw [hsc] at hpv
                  obtain ⟨tail, htail⟩ := serverSecretPaths_starts hpv
                  exact ⟨q.1 :: tail, by rw [htail]; rfl⟩
              rw [sanitizeMap_id mcp hns]
            | cons srv rest2 =>
              simp only [lookupPath, hlk, hm]
              have hstep : lookupKey (mcp.map (fun q => (q.1, sanitizeServerValue q.1 q.2))) srv
                  = (lookupKey mcp srv).map (sanitizeServerValue srv) :=
                lookupKey_map_entry _ mcp srv
              cases hsv : lookupKey mcp srv with
              | none =>
                apply lookupPath_congr_head
                rw [hstep, hsv]
                rfl
              | some w =>
                cases w with
                | obj sc =>
                  cases rest2 with
                  | nil =>
                    show lookupKey _ srv = lookupKey mcp srv
                    rw [hstep, hsv]
                    have hns : serverSecretPaths srv sc = [] := by
                      cases hqe : serverSecretPaths srv sc with
                      | nil => rfl
                      | cons pv t =>
                        exfalso
                        have hpv : pv ∈ serverSecretPaths srv sc := by
                          rw [hqe]
                          exact List.mem_cons_self _ _
                        have hmm : (srv, JVal.obj sc) ∈ mcp := lookupKey_some_mem hsv
                        have hmem : pv ∈ configSecretPaths D :=
                          mem_configSecretPaths.mpr ⟨mcp, hm, (srv, JVal.obj sc), hmm, hpv⟩
                        apply hex pv hmem
                        obtain ⟨tail, htail⟩ := serverSecretPaths_starts hpv
                        exact ⟨tail, by rw [htail]; rfl⟩
                    simp [sanitizeServerValue, serverNoSecrets_id hns]
                  | cons sec rest3 =>
                    have hl2 : lookupKey (mcp.map (fun q => (q.1, sanitizeServerValue q.1 q.2))) srv
                        = some (JVal.obj (sanitizeServer srv sc)) := by
                      rw [hstep, hsv]
                      rfl
                    simp only [lookupPath, hl2, hsv]
                    apply server_frame
                    intro pv hpv hstart
                    have hmm : (srv, JVal.obj sc) ∈ mcp := lookupKey_some_mem hsv
                    exact hex pv (mem_configSecretPaths.mpr ⟨mcp, hm, _, hmm, hpv⟩) hstart
                | str u =>
                  apply lookupPath_congr_head
                  rw [hstep, hsv]
                  rfl
                | num n =>
                  apply lookupPath_congr_head
                  rw [hstep, hsv]
                  rfl
                | bool b =>
                  apply lookupPath_congr_head
                  rw [hstep, hsv]
                  rfl
                | null =>
                  apply lookupPath_congr_head
                  rw [hstep, hsv]
                  rfl
                | arr l =>
                  apply lookupPath_congr_head
                  rw [hstep, hsv]
                  rfl
          · apply lookupPath_congr_head
            exact lookupKey_setKey_ne D _ hk
      | str s =>
        have hsan : sanitizeConfig D = D := by
          unfold sanitizeConfig
          rw [hm]
        rw [hsan]
      | num n =>
        have hsan : sanitizeConfig D = D := by
          unfold sanitizeConfig
          rw [hm]
        rw [hsan]
      | bool b =>
        have hsan : sanitizeConfig D = D := by
          unfold sanitizeConfig
          rw [hm]
        rw [hsan]
      | null =>
        have hsan : sanitizeConfig D = D := by
          unfold sanitizeConfig
          rw [hm]
        rw [hsan]
      | arr l =>
        have hsan : sanitizeConfig D = D := by
          unfold sanitizeConfig
          rw [hm]
        rw [hsan]
  · intro D hwf pv hmem
    obtain ⟨mcp, hm, q, hq, hpv⟩ := mem_configSecretPaths.mp hmem
    obtain ⟨sc, hsc⟩ : ∃ sc, q.2 = JVal.obj sc := by
      cases hq2 : q.2 <;>
        first
          | exact ⟨_, rfl⟩
          | (rw [hq2] at hpv; simp [serverPathsValue] at hpv)
    rw [hsc] at hpv
    have hqmem : (q.1, JVal.obj sc) ∈ mcp := by
      have : q = (q.1, JVal.obj sc) := by
        cases q
        simpa using hsc
      rw [← this]
      exact hq
    have hmcpd := (wfConfig_root hwf hm).2
    have hsrv := wfConfig_server hwf hm hqmem
    have hlksrv : lookupKey mcp q.1 = some (JVal.obj sc) :=
      lookupKey_of_mem_distinct hmcpd hqmem
    rcases mem_serverSecretPaths.mp hpv with
      ⟨hs, h2, v, hx, hmemhs, hsec, rfl⟩ | ⟨oa, cs, hy, hz, hsec, rfl⟩
    · refine ⟨?_, hsec, Or.inl ⟨q.1, h2, rfl⟩⟩
      have hhd : distinctKeysObj hs = true := hsrv.2.1 hs hx
      simp only [lookupPath, hm, hlksrv, hx]
      exact lookupKey_of_mem_distinct hhd hmemhs
    · refine ⟨?_, hsec, Or.inr ⟨q.1, rfl⟩⟩
      simp only [lookupPath, hm, hlksrv, hy]
      exact hz

/-- Witness for claim C2 at a concrete document. -/
theorem claim2_non_interference_witness :
    lookupPath (sanitizeConfig sampleDoc) ["mcp", "c7", "url"] =
      lookupPath sampleDoc ["mcp", "c7", "url"] ∧
    lookupPath sampleDoc ["mcp", "c7", "headers", "K"] = some (JVal.str "s3cret") := by
  constructor
  · apply (claim2_non_interference).1 sampleDoc ["mcp", "c7", "url"]
    intro pv hpv
    have hpv2 : pv = (["mcp", "c7", "headers", "K"], JVal.str "s3cret") :=
      List.mem_singleton.mp hpv
    rw [hpv2]
    rintro ⟨r, hr⟩
    simp at hr
  · exact ((claim2_non_interference).2 sampleDoc rfl
      (["mcp", "c7", "headers", "K"], JVal.str "s3cret") (List.mem_singleton_self _)).1

theorem deepMergeEntries_lookup :
    ∀ (extra base : Obj), distinctKeysObj extra = true →
    ∀ k : String,
    lookupKey (deepMergeEntries base extra) k =
      mergeSpecLookup (lookupKey base k) (lookupKey extra k)
  | [], base, _, k => by
    cases hlk : lookupKey base k <;> simp [deepMergeEntries, mergeSpecLookup, lookupKey, hlk]
  | (k0, v) :: rest, base, he, k => by
    obtain ⟨hnc, herest⟩ := distinctKeysObj_cons he
    have hstep : deepMergeEntries base ((k0, v) :: rest) =
        deepMergeEntries (setKey base k0
          (match lookupKey base k0 with
           | some bv => deepMergeV bv v
           | none => v)) rest := by
      rw [deepMergeEntries]
    rw [hstep, deepMergeEntries_lookup rest _ herest k]
    by_cases hk : k0 = k
    · subst hk
      rw [lookupKey_eq_none_of_not_contains hnc, lookupKey_setKey_self]
      have hrk : lookupKey ((k0, v) :: rest) k0 = some v := by simp [lookupKey]
      rw [hrk]
      cases hbv : lookupKey base k0 with
      | none =>
        cases v <;> simp [mergeSpecLookup]
      | some bv =>
        cases bv <;> cases v <;> simp [deepMergeV, mergeSpecLookup]
    · rw [lookupKey_setKey_ne base _ (fun hh => hk hh.symm)]
      have hrk : lookupKey ((k0, v) :: rest) k = lookupKey rest k := by
        simp [lookupKey, hk]
      rw [hrk]

/-- Claim C8: `mergeOverrides` deep-merges `extra` into `base`: at every
key the result holds what §4.2 prescribes (`mergeSpecLookup`) — two
plain mappings merge recursively, otherwise `extra` wins; keys only in
`base` are preserved unchanged and keys only in `extra` are added. -/
theorem claim8_merge_contract :
    (∀ base extra : Obj, distinctKeysObj extra = true →
      ∀ k : String, lookupKey (mergeOverrides base extra) k =
        mergeSpecLookup (lookupKey base k) (lookupKey extra k)) ∧
    (∀ base extra : Obj, distinctKeysObj extra = true →
      ∀ k : String, containsKey extra k = false →
      lookupKey (mergeOverrides base extra) k = lookupKey base k) ∧
    (∀ base extra : Obj, distinctKeysObj extra = true →
      ∀ k : String, lookupKey base k = none →
      lookupKey (mergeOverrides base extra) k = lookupKey extra k) := by
  refine ⟨?_, ?_, ?_⟩
  · intro base extra he k
    exact deepMergeEntries_lookup extra base he k
  · intro base extra he k hnc
    rw [show mergeOverrides base extra = deepMergeEntries base extra from rfl,
      deepMergeEntries_lookup extra base he k, lookupKey_eq_none_of_not_contains hnc]
    cases lookupKey base k <;> simp [mergeSpecLookup]
  · intro base extra he k hnone
    rw [show mergeOverrides base extra = deepMergeEntries base extra from rfl,
      deepMergeEntries_lookup extra base he k, hnone]
    cases hek : lookupKey extra k with
    | none => simp [mergeSpecLookup]
    | some ev => cases ev <;> simp [mergeSpecLookup]

/-- Witness for claim C8 at concrete inputs. -/
theorem claim8_merge_contract_witness :
    lookupKey (mergeOverrides [("a", JVal.obj [("x", JVal.num 1)]), ("keep", JVal.num 2)]
        [("a", JVal.obj [("y", JVal.num 3)])]) "a" =
      mergeSpecLookup (some (JVal.obj [("x", JVal.num 1)]))
        (some (JVal.obj [("y", JVal.num 3)])) ∧
    lookupKey (mergeOverrides [("a", JVal.obj [("x", JVal.num 1)]), ("keep", JVal.num 2)]
        [("a", JVal.obj [("y", JVal.num 3)])]) "keep" = some (JVal.num 2) :=
  ⟨claim8_merge_contract.1 [("a", JVal.obj [("x", JVal.num 1)]), ("keep", JVal.num 2)]
      [("a", JVal.obj [("y", JVal.num 3)])] rfl "a",
   claim8_merge_contract.2.1 [("a", JVal.obj [("x", JVal.num 1)]), ("keep", JVal.num 2)]
      [("a", JVal.obj [("y", JVal.num 3)])] rfl "keep" rfl⟩

/-- Witness for claim C10 at concrete inputs. -/
theorem claim10_strip_mismatch_deletes_witness :
    lookupKey (stripEntries [("a", JVal.obj [("x", JVal.num 1)])] [("a", JVal.num 5)]) "a"
      = none ∧
    lookupKey (stripEntries [("b", JVal.num 5)] [("b", JVal.obj [("y", JVal.num 2)])]) "b"
      = none ∧
    lookupKey (stripEntries [("c", JVal.obj [])] [("c", JVal.obj [("z", JVal.num 3)])]) "c"
      = none :=
  ⟨claim10_strip_mismatch_deletes.1 [("a", JVal.obj [("x", JVal.num 1)])]
      [("a", JVal.num 5)] "a" (JVal.obj [("x", JVal.num 1)]) (JVal.num 5)
      rfl rfl rfl rfl (by intro bo ro h1 h2; cases h2),
   claim10_strip_mismatch_deletes.1 [("b", JVal.num 5)]
      [("b", JVal.obj [("y", JVal.num 2)])] "b" (JVal.num 5) (JVal.obj [("y", JVal.num 2)])
      rfl rfl rfl rfl (by intro bo ro h1 h2; cases h1),
   claim10_strip_mismatch_deletes.2 [("c", JVal.obj [])]
      [("c", JVal.obj [("z", JVal.num 3)])] "c" [("z", JVal.num 3)] rfl rfl rfl rfl⟩

/-! ### Round-trip: shape of the recorded paths in relative form -/

theorem headerLeafPaths_map (s : String) (hs : Obj) :
    hs.filterMap (fun p =>
      if isSecretString p.2 then some (["mcp", s, "headers", p.1], p.2) else none)
    = (headerLeafPaths hs).map (fun pv => ("mcp" :: s :: "headers" :: pv.1, pv.2)) := by
  unfold headerLeafPaths
  induction hs with
  | nil => rfl
  | cons p rest ih =>
    by_cases hsec : isSecretString p.2 = true
    · simp only [List.filterMap_cons, hsec, if_true, List.map_cons, ih]
    · simp only [List.filterMap_cons, hsec, if_false, Bool.false_eq_true, ih]

theorem serverSecretPaths_shape (s : String) (sc : Obj) :
    serverSecretPaths s sc = (serverRelPaths sc).map (fun pv => ("mcp" :: s :: pv.1, pv.2)) := by
  unfold serverSecretPaths serverRelPaths headerSecretPaths oauthSecretPaths
  rw [List.map_append]
  congr 1
  · cases hx : lookupKey sc "headers" with
    | none => rfl
    | some v =>
      cases v with
      | obj hs =>
        show hs.filterMap (fun p =>
            if isSecretString p.2 then some (["mcp", s, "headers", p.1], p.2) else none)
          = ((headerLeafPaths hs).map (fun pv => ("headers" :: pv.1, pv.2))).map
              (fun pv => ("mcp" :: s :: pv.1, pv.2))
        rw [headerLeafPaths_map s hs, List.map_map]
        rfl
      | str s2 => rfl
      | num n => rfl
      | bool b => rfl
      | null => rfl
      | arr l => rfl
  · cases hy : lookupKey sc "oauth" with
    | none => rfl
    | some v =>
      cases v with
      | obj oa =>
        show (match lookupKey oa "clientSecret" with
              | some cs =>
                if isSecretString cs then [(["mcp", s, "oauth", "clientSecret"], cs)] else []
              | none => [])
          = List.map (fun pv => ("mcp" :: s :: pv.1, pv.2))
              (match lookupKey oa "clientSecret" with
               | some cs =>
                 if isSecretString cs then [(["oauth", "clientSecret"], cs)] else []
               | none => [])
        cases hz : lookupKey oa "clientSecret" with
        | none => rfl
        | some cs =>
          show (if isSecretString cs then [(["mcp", s, "oauth", "clientSecret"], cs)] else [])
            = List.map (fun pv => ("mcp" :: s :: pv.1, pv.2))
                (if isSecretString cs then [(["oauth", "clientSecret"], cs)] else [])
          by_cases hsec : isSecretString cs = true
          · rw [if_pos hsec, if_pos hsec]
            rfl
          · rw [if_neg hsec, if_neg hsec]
            rfl
      | str s2 => rfl
      | num n => rfl
      | bool b => rfl
      | null => rfl
      | arr l => rfl

theorem serverPathsValue_shape (s : String) (v : JVal) :
    serverPathsValue s v = (serverGroupPaths s v).map (fun pv => ("mcp" :: pv.1, pv.2)) := by
  cases v with
  | obj sc =>
    show serverSecretPaths s sc
      = ((serverRelPaths sc).map (fun pv => (s :: pv.1, pv.2))).map
          (fun pv => ("mcp" :: pv.1, pv.2))
    rw [List.map_map, serverSecretPaths_shape s sc]
    rfl
  | str s2 => rfl
  | num n => rfl
  | bool b => rfl
  | null => rfl
  | arr l => rfl

theorem foldr_paths_map : ∀ l : Obj,
    l.foldr (fun p acc => serverPathsValue p.1 p.2 ++ acc) []
      = (l.foldr (fun q acc => serverGroupPaths q.1 q.2 ++ acc) []).map
          (fun pv => ("mcp" :: pv.1, pv.2))
  | [] => rfl
  | q :: rest => by
    rw [List.foldr_cons, List.foldr_cons, List.map_append,
      serverPathsValue_shape q.1 q.2, foldr_paths_map rest]

theorem configSecretPaths_mcp {D : Obj} {mcp : Obj}
    (hm : lookupKey D "mcp" = some (JVal.obj mcp)) :
    configSecretPaths D = (mcpRelPaths mcp).map (fun pv => ("mcp" :: pv.1, pv.2)) := by
  unfold configSecretPaths mcpRelPaths
  simp only [hm]
  exact foldr_paths_map mcp

/-! ### Round-trip: membership facts about the relative paths -/

theorem mem_headerLeafPaths {hs : Obj} {pv : List String × JVal} :
    pv ∈ headerLeafPaths hs ↔ ∃ p ∈ hs, isSecretString p.2 = true ∧ pv = ([p.1], p.2) := by
  unfold headerLeafPaths
  rw [List.mem_filterMap]
  constructor
  · rintro ⟨p, hp, hf⟩
    by_cases hsec : isSecretString p.2 = true
    · rw [if_pos hsec] at hf
      exact ⟨p, hp, hsec, (Option.some.inj hf).symm⟩
    · rw [if_neg hsec] at hf
      simp at hf
  · rintro ⟨p, hp, hsec, rfl⟩
    exact ⟨p, hp, by rw [if_pos hsec]⟩

theorem mem_serverRelPaths_ne_nil {sc : Obj} {pv : List String × JVal}
    (h : pv ∈ serverRelPaths sc) : pv.1 ≠ [] := by
  unfold serverRelPaths at h
  rcases List.mem_append.mp h with h | h
  · split at h
    · obtain ⟨q, hq, rfl⟩ := List.mem_map.mp h
      simp
    · simp at h
  · split at h
    · split at h
      · split at h
        · rw [List.mem_singleton] at h
          subst h
          simp
        · simp at h
      · simp at h
    · simp at h

theorem mem_serverGroupPaths_head {s : String} {v : JVal} {pv : List String × JVal}
    (h : pv ∈ serverGroupPaths s v) : pv.1.head? = some s := by
  cases v with
  | obj sc =>
    obtain ⟨q, hq, rfl⟩ := List.mem_map.mp h
    rfl
  | str s2 => simp [serverGroupPaths] at h
  | num n => simp [serverGroupPaths] at h
  | bool b => simp [serverGroupPaths] at h
  | null => simp [serverGroupPaths] at h
  | arr l => simp [serverGroupPaths] at h

theorem mem_mcpRelPaths {l : Obj} {pv : List String × JVal} :
    pv ∈ mcpRelPaths l ↔ ∃ q ∈ l, pv ∈ serverGroupPaths q.1 q.2 := by
  unfold mcpRelPaths
  induction l with
  | nil => simp
  | cons q0 rest ih =>
    simp only [List.foldr_cons, List.mem_append, ih, List.mem_cons]
    constructor
    · rintro (h | ⟨q, hq, hm⟩)
      · exact ⟨q0, Or.inl rfl, h⟩
      · exact ⟨q, Or.inr hq, hm⟩
    · rintro ⟨q, (rfl | hq), hm⟩
      · exact Or.inl hm
      · exact Or.inr ⟨q, hq, hm⟩

theorem mcpRelPaths_head_ne {rest : Obj} {s : String}
    (hnc : containsKey rest s = false) :
    ∀ pv ∈ mcpRelPaths rest, pv.1.head? ≠ some s := by
  intro pv hpv heq
  obtain ⟨q, hq, hm⟩ := mem_mcpRelPaths.mp hpv
  obtain ⟨q1, q2⟩ := q
  have hhead := mem_serverGroupPaths_head hm
  rw [heq] at hhead
  obtain rfl : s = q1 := by
    injection hhead
  rw [mem_containsKey hq] at hnc
  exact Bool.true_eq_false.mp hnc

theorem headerLeafPaths_head_ne {rest : Obj} {h0 : String}
    (hnc : containsKey rest h0 = false) :
    ∀ pv ∈ headerLeafPaths rest, pv.1.head? ≠ some h0 := by
  intro pv hpv heq
  obtain ⟨p, hp, hsec, rfl⟩ := mem_headerLeafPaths.mp hpv
  obtain rfl : h0 = p.1 := by
    simp only [List.head?_cons, Option.some.injEq] at heq
    exact heq.symm
  obtain ⟨p1, p2⟩ := p
  rw [mem_containsKey hp] at hnc
  exact Bool.true_eq_false.mp hnc

theorem mem_headerLeafPaths_ne_nil {hs : Obj} {pv : List String × JVal}
    (h : pv ∈ headerLeafPaths hs) : pv.1 ≠ [] := by
  obtain ⟨p, hp, hsec, rfl⟩ := mem_headerLeafPaths.mp h
  simp

/-! ### Round-trip: restoring the original values level by level -/

theorem substPaths_nil (o : Obj) : substPaths o [] = o := rfl

theorem setKey_cons_self (k : String) (w v : JVal) (o : Obj) :
    setKey ((k, w) :: o) k v = (k, v) :: o := by
  simp [setKey]

theorem innerOf_cons_self (k : String) (i : Obj) (o : Obj) :
    innerOf ((k, JVal.obj i) :: o) k = i := by
  simp [innerOf, lookupKey]

theorem headerLeafPaths_nil_nonsecret {hs : Obj} (h : headerLeafPaths hs = []) :
    ∀ p ∈ hs, isSecretString p.2 = false := by
  intro p hp
  unfold headerLeafPaths at h
  have hnone := List.filterMap_eq_nil_iff.mp h p hp
  by_cases hsec : isSecretString p.2 = true
  · rw [if_pos hsec] at hnone
    simp at hnone
  · simpa using hsec

theorem substPaths_restore_headers (s : String) : ∀ hs : Obj, distinctKeysObj hs = true →
    substPaths (sanitizeHeaders s hs) (headerLeafPaths hs) = hs
  | [], _ => rfl
  | (h0, v) :: rest, hd => by
    obtain ⟨hnc, hdrest⟩ := distinctKeysObj_cons hd
    have hhead := headerLeafPaths_head_ne hnc
    by_cases hsec : isSecretString v = true
    · have e1 : headerLeafPaths ((h0, v) :: rest) = ([h0], v) :: headerLeafPaths rest := by
        unfold headerLeafPaths
        rw [List.filterMap_cons]
        simp [hsec]
      have e2 : sanitizeHeaders s ((h0, v) :: rest)
          = (h0, sanitizeHeaderValue s h0 v) :: sanitizeHeaders s rest := rfl
      rw [e2, e1]
      show substPaths
        (setNested ((h0, sanitizeHeaderValue s h0 v) :: sanitizeHeaders s rest) [h0] v)
        (headerLeafPaths rest) = (h0, v) :: rest
      rw [show setNested ((h0, sanitizeHeaderValue s h0 v) :: sanitizeHeaders s rest) [h0] v
          = (h0, v) :: sanitizeHeaders s rest from by
        show setKey ((h0, sanitizeHeaderValue s h0 v) :: sanitizeHeaders s rest) h0 v = _
        rw [setKey_cons_self]]
      rw [substPaths_cons_keep h0 v _ hhead, substPaths_restore_headers s rest hdrest]
    · have e1 : headerLeafPaths ((h0, v) :: rest) = headerLeafPaths rest := by
        unfold headerLeafPaths
        rw [List.filterMap_cons]
        simp [hsec]
      have e2 : sanitizeHeaders s ((h0, v) :: rest) = (h0, v) :: sanitizeHeaders s rest := by
        show (h0, sanitizeHeaderValue s h0 v) :: sanitizeHeaders s rest = _
        rw [sanitizeHeaderValue_nonsecret (by simpa using hsec)]
      rw [e2, e1, substPaths_cons_keep h0 v _ hhead, substPaths_restore_headers s rest hdrest]

theorem restore_headers_stage (s : String) {t : Obj} (hs : Obj)
    (hd : distinctKeysObj hs = true) :
    substPaths (setKey t "headers" (JVal.obj (sanitizeHeaders s hs)))
      ((headerLeafPaths hs).map (fun pv => ("headers" :: pv.1, pv.2)))
      = setKey t "headers" (JVal.obj hs) := by
  by_cases hne : headerLeafPaths hs = []
  · rw [hne]
    show setKey t "headers" (JVal.obj (sanitizeHeaders s hs)) = setKey t "headers" (JVal.obj hs)
    rw [sanitizeHeaders_nonsecret_id s hs (headerLeafPaths_nil_nonsecret hne)]
  · rw [substPaths_peel "headers" (headerLeafPaths hs) _ hne
      (fun pv hpv => mem_headerLeafPaths_ne_nil hpv)]
    rw [innerOf_setKey_self, setKey_setKey_same, substPaths_restore_headers s hs hd]

theorem restore_oauth_stage {t oa : Obj} {cs : JVal} {ph : JVal}
    (hz : lookupKey oa "clientSecret" = some cs) :
    substPaths (setKey t "oauth" (JVal.obj (setKey oa "clientSecret" ph)))
      [(["oauth", "clientSecret"], cs)] = setKey t "oauth" (JVal.obj oa) := by
  show setKey (setKey t "oauth" (JVal.obj (setKey oa "clientSecret" ph))) "oauth"
      (JVal.obj (setKey
        (innerOf (setKey t "oauth" (JVal.obj (setKey oa "clientSecret" ph))) "oauth")
        "clientSecret" cs))
    = setKey t "oauth" (JVal.obj oa)
  rw [innerOf_setKey_self, setKey_setKey_same, setKey_setKey_same, setKey_eq_self hz]

theorem substPaths_restore_server (s : String) (sc : Obj)
    (hhd : ∀ hs, lookupKey sc "headers" = some (JVal.obj hs) → distinctKeysObj hs = true) :
    substPaths (sanitizeServer s sc) (serverRelPaths sc) = sc := by
  unfold serverRelPaths sanitizeServer sanitizeServerHeaders
  rw [substPaths_append]
  split
  · rename_i hs hx
    have hd := hhd hs hx
    unfold sanitizeOauth
    rw [show lookupKey (setKey sc "headers" (JVal.obj (sanitizeHeaders s hs))) "oauth"
        = lookupKey sc "oauth" from lookupKey_setKey_ne sc _ (by decide)]
    split
    · rename_i oa hy
      split
      · rename_i cs hz
        by_cases hsec : isSecretString cs = true
        · rw [if_pos hsec, if_pos hsec]
          rw [setKey_comm _ _ (by decide) (contains_of_lookupKey_eq_some hx)]
          rw [restore_headers_stage s hs hd]
          rw [setKey_comm _ _ (by decide) (contains_of_lookupKey_eq_some hy)]
          rw [restore_oauth_stage hz]
          rw [setKey_eq_self hx, setKey_eq_self hy]
        · rw [if_neg hsec, if_neg hsec, substPaths_nil]
          rw [restore_headers_stage s hs hd, setKey_eq_self hx]
      · rw [substPaths_nil]
        rw [restore_headers_stage s hs hd, setKey_eq_self hx]
    · rename_i hno
      rw [substPaths_nil]
      rw [restore_headers_stage s hs hd, setKey_eq_self hx]
  · rename_i hno
    rw [substPaths_nil]
    unfold sanitizeOauth
    split
    · rename_i oa hy
      split
      · rename_i cs hz
        by_cases hsec : isSecretString cs = true
        · rw [if_pos hsec, if_pos hsec]
          rw [restore_oauth_stage hz, setKey_eq_self hy]
        · rw [if_neg hsec, if_neg hsec, substPaths_nil]
      · rw [substPaths_nil]
    · rw [substPaths_nil]

theorem mem_mcpRelPaths_ne_nil {l : Obj} {pv : List String × JVal}
    (h : pv ∈ mcpRelPaths l) : pv.1 ≠ [] := by
  obtain ⟨q, hq, hgm⟩ := mem_mcpRelPaths.mp h
  have hhead := mem_serverGroupPaths_head hgm
  intro hnil
  rw [hnil] at hhead
  simp at hhead

theorem serverGroupPaths_nil_of_mcpRel {l : Obj} (h : mcpRelPaths l = [])
    {q : String × JVal} (hq : q ∈ l) : serverGroupPaths q.1 q.2 = [] := by
  rcases hgrp : serverGroupPaths q.1 q.2 with _ | ⟨pv, t⟩
  · rfl
  · have hmem : pv ∈ mcpRelPaths l :=
      mem_mcpRelPaths.mpr ⟨q, hq, by rw [hgrp]; exact List.mem_cons_self _ _⟩
    rw [h] at hmem
    simp at hmem

theorem substPaths_restore_mcp : ∀ l : Obj,
    distinctKeysObj l = true →
    (∀ q ∈ l, ∀ sc, q.2 = JVal.obj sc →
      ∀ hs, lookupKey sc "headers" = some (JVal.obj hs) → distinctKeysObj hs = true) →
    substPaths (l.map (fun q => (q.1, sanitizeServerValue q.1 q.2))) (mcpRelPaths l) = l
  | [], _, _ => rfl
  | (s, v) :: rest, hd, hh => by
    obtain ⟨hnc, hdrest⟩ := distinctKeysObj_cons hd
    have hhrest : ∀ q ∈ rest, ∀ sc, q.2 = JVal.obj sc →
        ∀ hs, lookupKey sc "headers" = some (JVal.obj hs) → distinctKeysObj hs = true :=
      fun q hq => hh q (List.mem_cons_of_mem _ hq)
    have hheads := mcpRelPaths_head_ne hnc
    have emcp : mcpRelPaths ((s, v) :: rest) = serverGroupPaths s v ++ mcpRelPaths rest := rfl
    rw [List.map_cons, emcp, substPaths_append]
    cases v with
    | obj sc =>
      have hhd : ∀ hs, lookupKey sc "headers" = some (JVal.obj hs) → distinctKeysObj hs = true :=
        hh (s, JVal.obj sc) (List.mem_cons_self _ _) sc rfl
      by_cases hrel : serverRelPaths sc = []
      · have egrp : serverGroupPaths s (JVal.obj sc) = [] := by
          show (serverRelPaths sc).map (fun pv => (s :: pv.1, pv.2)) = []
          rw [hrel]
          rfl
        have esan : sanitizeServerValue s (JVal.obj sc) = JVal.obj sc := by
          show JVal.obj (sanitizeServer s sc) = JVal.obj sc
          rw [serverNoSecrets_id (by rw [serverSecretPaths_shape, hrel]; rfl)]
        rw [egrp, substPaths_nil, esan,
          substPaths_cons_keep s _ _ hheads, substPaths_restore_mcp rest hdrest hhrest]
      · have egrp : serverGroupPaths s (JVal.obj sc)
            = (serverRelPaths sc).map (fun pv => (s :: pv.1, pv.2)) := rfl
        have esan : sanitizeServerValue s (JVal.obj sc) = JVal.obj (sanitizeServer s sc) := rfl
        rw [egrp, esan,
          substPaths_peel s (serverRelPaths sc) _ hrel
            (fun pv hpv => mem_serverRelPaths_ne_nil hpv),
          innerOf_cons_self, substPaths_restore_server s sc hhd, setKey_cons_self,
          substPaths_cons_keep s _ _ hheads, substPaths_restore_mcp rest hdrest hhrest]
    | str s2 =>
      rw [show serverGroupPaths s (JVal.str s2) = [] from rfl, substPaths_nil,
        show sanitizeServerValue s (JVal.str s2) = JVal.str s2 from rfl,
        substPaths_cons_keep s _ _ hheads, substPaths_restore_mcp rest hdrest hhrest]
    | num n =>
      rw [show serverGroupPaths s (JVal.num n) = [] from rfl, substPaths_nil,
        show sanitizeServerValue s (JVal.num n) = JVal.num n from rfl,
        substPaths_cons_keep s _ _ hheads, substPaths_restore_mcp rest hdrest hhrest]
    | bool b =>
      rw [show serverGroupPaths s (JVal.bool b) = [] from rfl, substPaths_nil,
        show sanitizeServerValue s (JVal.bool b) = JVal.bool b from rfl,
        substPaths_cons_keep s _ _ hheads, substPaths_restore_mcp rest hdrest hhrest]
    | null =>
      rw [show serverGroupPaths s JVal.null = [] from rfl, substPaths_nil,
        show sanitizeServerValue s JVal.null = JVal.null from rfl,
        substPaths_cons_keep s _ _ hheads, substPaths_restore_mcp rest hdrest hhrest]
    | arr l2 =>
      rw [show serverGroupPaths s (JVal.arr l2) = [] from rfl, substPaths_nil,
        show sanitizeServerValue s (JVal.arr l2) = JVal.arr l2 from rfl,
        substPaths_cons_keep s _ _ hheads, substPaths_restore_mcp rest hdrest hhrest]

theorem substPaths_restore_config (D : Obj) (hwf : wfConfig D = true) :
    substPaths (sanitizeConfig D) (configSecretPaths D) = D := by
  cases hm : lookupKey D "mcp" with
  | none =>
    have e1 : sanitizeConfig D = D := by
      unfold sanitizeConfig
      simp only [hm]
    have e2 : configSecretPaths D = [] := by
      unfold configSecretPaths
      simp only [hm]
    rw [e1, e2, substPaths_nil]
  | some v =>
    cases v with
    | obj mcp =>
      obtain ⟨hdD, hdmcp⟩ := wfConfig_root hwf hm
      have e1 : sanitizeConfig D
          = setKey D "mcp" (JVal.obj (mcp.map (fun q => (q.1, sanitizeServerValue q.1 q.2)))) := by
        unfold sanitizeConfig
        simp only [hm]
      have hh : ∀ q ∈ mcp, ∀ sc, q.2 = JVal.obj sc →
          ∀ hs, lookupKey sc "headers" = some (JVal.obj hs) → distinctKeysObj hs = true := by
        intro q hq sc hsc hs hx
        obtain ⟨q1, q2⟩ := q
        simp only at hsc
        subst hsc
        exact (wfConfig_server hwf hm hq).2.1 hs hx
      rw [e1, configSecretPaths_mcp hm]
      by_cases hrel : mcpRelPaths mcp = []
      · rw [hrel]
        show setKey D "mcp" (JVal.obj (mcp.map (fun q => (q.1, sanitizeServerValue q.1 q.2)))) = D
        have hnil : ∀ q ∈ mcp, serverPathsValue q.1 q.2 = [] := by
          intro q hq
          rw [serverPathsValue_shape, serverGroupPaths_nil_of_mcpRel hrel hq]
          rfl
        rw [sanitizeMap_id mcp hnil, setKey_eq_self hm]
      · rw [substPaths_peel "mcp" (mcpRelPaths mcp) _ hrel
          (fun pv hpv => mem_mcpRelPaths_ne_nil hpv),
          innerOf_setKey_self, setKey_setKey_same,
          substPaths_restore_mcp mcp hdmcp hh, setKey_eq_self hm]
    | str s2 =>
      have e1 : sanitizeConfig D = D := by
        unfold sanitizeConfig
        simp only [hm]
      have e2 : configSecretPaths D = [] := by
        unfold configSecretPaths
        simp only [hm]
      rw [e1, e2, substPaths_nil]
    | num n =>
      have e1 : sanitizeConfig D = D := by
        unfold sanitizeConfig
        simp only [hm]
      have e2 : configSecretPaths D = [] := by
        unfold configSecretPaths
        simp only [hm]
      rw [e1, e2, substPaths_nil]
    | bool b =>
      have e1 : sanitizeConfig D = D := by
        unfold sanitizeConfig
        simp only [hm]
      have e2 : configSecretPaths D = [] := by
        unfold configSecretPaths
        simp only [hm]
      rw [e1, e2, substPaths_nil]
    | null =>
      have e1 : sanitizeConfig D = D := by
        unfold sanitizeConfig
        simp only [hm]
      have e2 : configSecretPaths D = [] := by
        unfold configSecretPaths
        simp only [hm]
      rw [e1, e2, substPaths_nil]
    | arr l2 =>
      have e1 : sanitizeConfig D = D := by
        unfold sanitizeConfig
        simp only [hm]
      have e2 : configSecretPaths D = [] := by
        unfold configSecretPaths
        simp only [hm]
      rw [e1, e2, substPaths_nil]

/-! ### Round-trip: the accumulated override object equals the explicit tree -/

theorem setKey_append_of_not_contains {o : Obj} {k : String} (v : JVal)
    (h : containsKey o k = false) : setKey o k v = o ++ [(k, v)] := by
  induction o with
  | nil => rfl
  | cons p rest ih =>
    obtain ⟨k1, w⟩ := p
    simp only [containsKey, Bool.or_eq_false_iff, beq_eq_false_iff_ne] at h
    simp [setKey, h.1, ih h.2]

theorem substPaths_build_headers : ∀ hs : Obj, distinctKeysObj hs = true →
    substPaths [] (headerLeafPaths hs) = headerSecretEntries hs
  | [], _ => rfl
  | (h0, v) :: rest, hd => by
    obtain ⟨hnc, hdrest⟩ := distinctKeysObj_cons hd
    have hhead := headerLeafPaths_head_ne hnc
    by_cases hsec : isSecretString v = true
    · have e1 : headerLeafPaths ((h0, v) :: rest) = ([h0], v) :: headerLeafPaths rest := by
        unfold headerLeafPaths
        rw [List.filterMap_cons]
        simp [hsec]
      have e2 : headerSecretEntries ((h0, v) :: rest) = (h0, v) :: headerSecretEntries rest := by
        unfold headerSecretEntries
        rw [List.filterMap_cons]
        simp [hsec]
      rw [e1, e2]
      show substPaths (setNested [] [h0] v) (headerLeafPaths rest) = _
      rw [show setNested ([] : Obj) [h0] v = [(h0, v)] from rfl,
        substPaths_cons_keep h0 v _ hhead, substPaths_build_headers rest hdrest]
    · have e1 : headerLeafPaths ((h0, v) :: rest) = headerLeafPaths rest := by
        unfold headerLeafPaths
        rw [List.filterMap_cons]
        simp [hsec]
      have e2 : headerSecretEntries ((h0, v) :: rest) = headerSecretEntries rest := by
        unfold headerSecretEntries
        rw [List.filterMap_cons]
        simp [hsec]
      rw [e1, e2, substPaths_build_headers rest hdrest]

theorem headerSecretEntries_nil_iff : ∀ hs : Obj,
    headerSecretEntries hs = [] ↔ headerLeafPaths hs = []
  | [] => by simp [headerSecretEntries, headerLeafPaths]
  | (h0, v) :: rest => by
    by_cases hsec : isSecretString v = true
    · have e1 : headerSecretEntries ((h0, v) :: rest) = (h0, v) :: headerSecretEntries rest := by
        unfold headerSecretEntries
        rw [List.filterMap_cons]
        simp [hsec]
      have e2 : headerLeafPaths ((h0, v) :: rest) = ([h0], v) :: headerLeafPaths rest := by
        unfold headerLeafPaths
        rw [List.filterMap_cons]
        simp [hsec]
      rw [e1, e2]
      simp
    · have e1 : headerSecretEntries ((h0, v) :: rest) = headerSecretEntries rest := by
        unfold headerSecretEntries
        rw [List.filterMap_cons]
        simp [hsec]
      have e2 : headerLeafPaths ((h0, v) :: rest) = headerLeafPaths rest := by
        unfold headerLeafPaths
        rw [List.filterMap_cons]
        simp [hsec]
      rw [e1, e2]
      exact headerSecretEntries_nil_iff rest

theorem leafEntries_append : ∀ a b : Obj, leafEntries (a ++ b) = leafEntries a ++ leafEntries b
  | [], _ => rfl
  | (k, v) :: rest, b => by
    show leafOf k v ++ leafEntries (rest ++ b)
      = (leafOf k v ++ leafEntries rest) ++ leafEntries b
    rw [leafEntries_append rest b, List.append_assoc]

theorem leafEntries_headerSecretEntries : ∀ hs : Obj,
    leafEntries (headerSecretEntries hs) = headerLeafPaths hs
  | [] => rfl
  | (h0, v) :: rest => by
    by_cases hsec : isSecretString v = true
    · obtain ⟨u, rfl⟩ := isSecretString_str hsec
      have e1 : headerSecretEntries ((h0, JVal.str u) :: rest)
          = (h0, JVal.str u) :: headerSecretEntries rest := by
        unfold headerSecretEntries
        rw [List.filterMap_cons]
        simp [hsec]
      have e2 : headerLeafPaths ((h0, JVal.str u) :: rest)
          = ([h0], JVal.str u) :: headerLeafPaths rest := by
        unfold headerLeafPaths
        rw [List.filterMap_cons]
        simp [hsec]
      rw [e1, e2]
      show ([h0], JVal.str u) :: leafEntries (headerSecretEntries rest) = _
      rw [leafEntries_headerSecretEntries rest]
    · have e1 : headerSecretEntries ((h0, v) :: rest) = headerSecretEntries rest := by
        unfold headerSecretEntries
        rw [List.filterMap_cons]
        simp [hsec]
      have e2 : headerLeafPaths ((h0, v) :: rest) = headerLeafPaths rest := by
        unfold headerLeafPaths
        rw [List.filterMap_cons]
        simp [hsec]
      rw [e1, e2, leafEntries_headerSecretEntries rest]

theorem setNested_oauth_new (acc : Obj) (cs : JVal)
    (hno : containsKey acc "oauth" = false) :
    setNested acc ["oauth", "clientSecret"] cs
      = acc ++ [("oauth", JVal.obj [("clientSecret", cs)])] := by
  show setKey acc "oauth" (JVal.obj (setNested (innerOf acc "oauth") ["clientSecret"] cs))
    = acc ++ [("oauth", JVal.obj [("clientSecret", cs)])]
  rw [show innerOf acc "oauth" = [] from by
      unfold innerOf
      rw [lookupKey_eq_none_of_not_contains hno]]
  rw [show setNested ([] : Obj) ["clientSecret"] cs = [("clientSecret", cs)] from rfl]
  exact setKey_append_of_not_contains _ hno

theorem substPaths_build_oauth (acc : Obj) (sc : Obj)
    (hno : containsKey acc "oauth" = false) :
    substPaths acc
      (match lookupKey sc "oauth" with
       | some (JVal.obj oa) =>
         match lookupKey oa "clientSecret" with
         | some cs => if isSecretString cs then [(["oauth", "clientSecret"], cs)] else []
         | none => []
       | _ => [])
      = acc ++
        (match lookupKey sc "oauth" with
         | some (JVal.obj oa) =>
           match lookupKey oa "clientSecret" with
           | some cs =>
             if isSecretString cs then [("oauth", JVal.obj [("clientSecret", cs)])] else []
           | none => []
         | _ => []) := by
  split
  · rename_i oa hy
    split
    · rename_i cs hz
      by_cases hsec : isSecretString cs = true
      · rw [if_pos hsec, if_pos hsec]
        show setNested acc ["oauth", "clientSecret"] cs = _
        exact setNested_oauth_new acc cs hno
      · rw [if_neg hsec, if_neg hsec, substPaths_nil, List.append_nil]
    · rw [substPaths_nil, List.append_nil]
  · rw [substPaths_nil, List.append_nil]

theorem isEmpty_eq_nil {α : Type} {l : List α} (h : l.isEmpty = true) : l = [] := by
  cases l with
  | nil => rfl
  | cons a t => simp at h

theorem headersOverride_nil_iff (sc : Obj) :
    ((match lookupKey sc "headers" with
      | some (JVal.obj hs) =>
        if (headerSecretEntries hs).isEmpty then []
        else [("headers", JVal.obj (headerSecretEntries hs))]
      | _ => []) = ([] : Obj)) ↔
    ((match lookupKey sc "headers" with
      | some (JVal.obj hs) => (headerLeafPaths hs).map (fun pv => ("headers" :: pv.1, pv.2))
      | _ => []) = []) := by
  split
  · rename_i hs hx
    by_cases hie : (headerSecretEntries hs).isEmpty = true
    · have h0 : headerLeafPaths hs = [] :=
        (headerSecretEntries_nil_iff hs).mp (isEmpty_eq_nil hie)
      rw [if_pos hie, h0]
      simp
    · rw [if_neg hie]
      constructor
      · intro h
        simp at h
      · intro h
        have h1 : headerLeafPaths hs = [] := by
          cases hL : headerLeafPaths hs with
          | nil => rfl
          | cons a t =>
            rw [hL] at h
            simp at h
        have h2 : headerSecretEntries hs = [] := (headerSecretEntries_nil_iff hs).mpr h1
        rw [h2] at hie
        simp at hie
  · exact ⟨fun _ => rfl, fun _ => rfl⟩

theorem oauthOverride_nil_iff (sc : Obj) :
    ((match lookupKey sc "oauth" with
      | some (JVal.obj oa) =>
        match lookupKey oa "clientSecret" with
        | some cs =>
          if isSecretString cs then [("oauth", JVal.obj [("clientSecret", cs)])] else []
        | none => []
      | _ => []) = ([] : Obj)) ↔
    ((match lookupKey sc "oauth" with
      | some (JVal.obj oa) =>
        match lookupKey oa "clientSecret" with
        | some cs => if isSecretString cs then [(["oauth", "clientSecret"], cs)] else []
        | none => []
      | _ => []) = []) := by
  split
  · rename_i oa hy
    split
    · rename_i cs hz
      by_cases hsec : isSecretString cs = true
      · rw [if_pos hsec, if_pos hsec]
        simp
      · rw [if_neg hsec, if_neg hsec]
        exact ⟨fun _ => rfl, fun _ => rfl⟩
    · exact ⟨fun _ => rfl, fun _ => rfl⟩
  · exact ⟨fun _ => rfl, fun _ => rfl⟩

theorem serverOverrideObj_nil_iff (sc : Obj) :
    serverOverrideObj sc = [] ↔ serverRelPaths sc = [] := by
  unfold serverOverrideObj serverRelPaths
  rw [List.append_eq_nil, List.append_eq_nil]
  exact and_congr (headersOverride_nil_iff sc) (oauthOverride_nil_iff sc)

theorem substPaths_build_server (sc : Obj)
    (hhd : ∀ hs, lookupKey sc "headers" = some (JVal.obj hs) → distinctKeysObj hs = true) :
    substPaths [] (serverRelPaths sc) = serverOverrideObj sc := by
  unfold serverRelPaths serverOverrideObj
  rw [substPaths_append]
  split
  · rename_i hs hx
    have hd := hhd hs hx
    by_cases hne : headerLeafPaths hs = []
    · have hse : headerSecretEntries hs = [] := (headerSecretEntries_nil_iff hs).mpr hne
      rw [hne, hse]
      simp only [List.map_nil]
      rw [substPaths_nil, if_pos (show (List.isEmpty ([] : Obj)) = true from rfl)]
      exact substPaths_build_oauth [] sc rfl
    · rw [substPaths_peel "headers" (headerLeafPaths hs) _ hne
        (fun pv hpv => mem_headerLeafPaths_ne_nil hpv)]
      rw [show innerOf ([] : Obj) "headers" = [] from rfl]
      rw [substPaths_build_headers hs hd]
      rw [show setKey ([] : Obj) "headers" (JVal.obj (headerSecretEntries hs))
          = [("headers", JVal.obj (headerSecretEntries hs))] from rfl]
      have hie : (headerSecretEntries hs).isEmpty = false := by
        cases hoe : headerSecretEntries hs with
        | nil => exact absurd ((headerSecretEntries_nil_iff hs).mp hoe) hne
        | cons a t => rfl
      rw [if_neg (by rw [hie]; exact Bool.false_ne_true)]
      exact substPaths_build_oauth [("headers", JVal.obj (headerSecretEntries hs))] sc
        (by simp [containsKey])
  · rw [substPaths_nil]
    exact substPaths_build_oauth [] sc rfl

theorem substPaths_build_servers : ∀ l : Obj, distinctKeysObj l = true →
    (∀ q ∈ l, ∀ sc, q.2 = JVal.obj sc →
      ∀ hs, lookupKey sc "headers" = some (JVal.obj hs) → distinctKeysObj hs = true) →
    substPaths [] (mcpRelPaths l) = l.filterMap serverOverrideEntry
  | [], _, _ => rfl
  | (s, v) :: rest, hd, hh => by
    obtain ⟨hnc, hdrest⟩ := distinctKeysObj_cons hd
    have hhrest : ∀ q ∈ rest, ∀ sc, q.2 = JVal.obj sc →
        ∀ hs, lookupKey sc "headers" = some (JVal.obj hs) → distinctKeysObj hs = true :=
      fun q hq => hh q (List.mem_cons_of_mem _ hq)
    have hheads := mcpRelPaths_head_ne hnc
    rw [show mcpRelPaths ((s, v) :: rest) = serverGroupPaths s v ++ mcpRelPaths rest from rfl,
      substPaths_append]
    cases v with
    | obj sc =>
      have hhd : ∀ hs, lookupKey sc "headers" = some (JVal.obj hs) → distinctKeysObj hs = true :=
        hh (s, JVal.obj sc) (List.mem_cons_self _ _) sc rfl
      by_cases hrel : serverRelPaths sc = []
      · have hov : serverOverrideObj sc = [] := (serverOverrideObj_nil_iff sc).mpr hrel
        have egrp : serverGroupPaths s (JVal.obj sc) = [] := by
          show (serverRelPaths sc).map (fun pv => (s :: pv.1, pv.2)) = []
          rw [hrel]
          rfl
        have eent : serverOverrideEntry (s, JVal.obj sc) = none := by
          show (if (serverOverrideObj sc).isEmpty then none
            else some (s, JVal.obj (serverOverrideObj sc))) = none
          rw [hov]
          exact if_pos rfl
        rw [egrp, substPaths_nil, List.filterMap_cons, eent]
        exact substPaths_build_servers rest hdrest hhrest
      · have hovne : serverOverrideObj sc ≠ [] :=
          fun he => hrel ((serverOverrideObj_nil_iff sc).mp he)
        have hie : (serverOverrideObj sc).isEmpty = false := by
          cases hoe : serverOverrideObj sc with
          | nil => exact absurd hoe hovne
          | cons a t => rfl
        have eent : serverOverrideEntry (s, JVal.obj sc)
            = some (s, JVal.obj (serverOverrideObj sc)) := by
          show (if (serverOverrideObj sc).isEmpty then none
            else some (s, JVal.obj (serverOverrideObj sc))) = _
          rw [if_neg (by rw [hie]; exact Bool.false_ne_true)]
        have egrp : serverGroupPaths s (JVal.obj sc)
            = (serverRelPaths sc).map (fun pv => (s :: pv.1, pv.2)) := rfl
        rw [egrp, substPaths_peel s (serverRelPaths sc) _ hrel
            (fun pv hpv => mem_serverRelPaths_ne_nil hpv),
          show innerOf ([] : Obj) s = [] from rfl,
          substPaths_build_server sc hhd,
          show setKey ([] : Obj) s (JVal.obj (serverOverrideObj sc))
            = [(s, JVal.obj (serverOverrideObj sc))] from rfl,
          substPaths_cons_keep s _ _ hheads,
          substPaths_build_servers rest hdrest hhrest,
          List.filterMap_cons, eent]
    | str s2 =>
      rw [show serverGroupPaths s (JVal.str s2) = [] from rfl, substPaths_nil]
      exact substPaths_build_servers rest hdrest hhrest
    | num n =>
      rw [show serverGroupPaths s (JVal.num n) = [] from rfl, substPaths_nil]
      exact substPaths_build_servers rest hdrest hhrest
    | bool b =>
      rw [show serverGroupPaths s (JVal.bool b) = [] from rfl, substPaths_nil]
      exact substPaths_build_servers rest hdrest hhrest
    | null =>
      rw [show serverGroupPaths s JVal.null = [] from rfl, substPaths_nil]
      exact substPaths_build_servers rest hdrest hhrest
    | arr l2 =>
      rw [show serverGroupPaths s (JVal.arr l2) = [] from rfl, substPaths_nil]
      exact substPaths_build_servers rest hdrest hhrest

theorem overrides_eq_tree (D : Obj) (hwf : wfConfig D = true) :
    substPaths [] (configSecretPaths D) = overridesTree D := by
  cases hm : lookupKey D "mcp" with
  | none =>
    have e2 : configSecretPaths D = [] := by
      unfold configSecretPaths
      simp only [hm]
    have e3 : overridesTree D = [] := by
      unfold overridesTree
      simp only [hm]
    rw [e2, e3, substPaths_nil]
  | some v =>
    cases v with
    | obj mcp =>
      obtain ⟨hdD, hdmcp⟩ := wfConfig_root hwf hm
      have hh : ∀ q ∈ mcp, ∀ sc, q.2 = JVal.obj sc →
          ∀ hs, lookupKey sc "headers" = some (JVal.obj hs) → distinctKeysObj hs = true := by
        intro q hq sc hsc hs hx
        obtain ⟨q1, q2⟩ := q
        simp only at hsc
        subst hsc
        exact (wfConfig_server hwf hm hq).2.1 hs hx
      have etree : overridesTree D
          = (if (mcp.filterMap serverOverrideEntry).isEmpty then []
             else [("mcp", JVal.obj (mcp.filterMap serverOverrideEntry))]) := by
        unfold overridesTree
        simp only [hm]
      rw [configSecretPaths_mcp hm, etree]
      by_cases hrel : mcpRelPaths mcp = []
      · have hserv : mcp.filterMap serverOverrideEntry = [] := by
          rw [List.filterMap_eq_nil_iff]
          intro q hq
          obtain ⟨q1, q2⟩ := q
          cases q2 with
          | obj sc =>
            have hgrp : serverGroupPaths q1 (JVal.obj sc) = [] :=
              serverGroupPaths_nil_of_mcpRel hrel hq
            have hrelnil : serverRelPaths sc = [] := by
              cases hr : serverRelPaths sc with
              | nil => rfl
              | cons a t =>
                rw [show serverGroupPaths q1 (JVal.obj sc)
                    = (serverRelPaths sc).map (fun pv => (q1 :: pv.1, pv.2)) from rfl, hr] at hgrp
                simp at hgrp
            have hov : serverOverrideObj sc = [] := (serverOverrideObj_nil_iff sc).mpr hrelnil
            show (if (serverOverrideObj sc).isEmpty then none
              else some (q1, JVal.obj (serverOverrideObj sc))) = none
            rw [hov]
            exact if_pos rfl
          | str s2 => rfl
          | num n => rfl
          | bool b => rfl
          | null => rfl
          | arr l2 => rfl
        rw [hrel, hserv]
        rfl
      · have hne' : mcp.filterMap serverOverrideEntry ≠ [] := by
          obtain ⟨pv, hpv⟩ : ∃ pv, pv ∈ mcpRelPaths mcp := by
            cases hmr : mcpRelPaths mcp with
            | nil => exact absurd hmr hrel
            | cons a t => exact ⟨a, by simp [hmr]⟩
          obtain ⟨q, hq, hgm⟩ := mem_mcpRelPaths.mp hpv
          obtain ⟨q1, q2⟩ := q
          intro hfm
          have hnone := List.filterMap_eq_nil_iff.mp hfm (q1, q2) hq
          cases q2 with
          | obj sc =>
            have hrelne : serverRelPaths sc ≠ [] := by
              intro he
              rw [show serverGroupPaths (q1, JVal.obj sc).1 (q1, JVal.obj sc).2
                  = (serverRelPaths sc).map (fun pv => (q1 :: pv.1, pv.2)) from rfl, he] at hgm
              simp at hgm
            have hovne : serverOverrideObj sc ≠ [] :=
              fun he => hrelne ((serverOverrideObj_nil_iff sc).mp he)
            have hie : (serverOverrideObj sc).isEmpty = false := by
              cases hoe : serverOverrideObj sc with
              | nil => exact absurd hoe hovne
              | cons a t => rfl
            rw [show serverOverrideEntry (q1, JVal.obj sc)
                = (if (serverOverrideObj sc).isEmpty then none
                   else some (q1, JVal.obj (serverOverrideObj sc))) from rfl, hie] at hnone
            simp at hnone
          | str s2 => simp [serverGroupPaths] at hgm
          | num n => simp [serverGroupPaths] at hgm
          | bool b => simp [serverGroupPaths] at hgm
          | null => simp [serverGroupPaths] at hgm
          | arr l2 => simp [serverGroupPaths] at hgm
        have hie : (mcp.filterMap serverOverrideEntry).isEmpty = false := by
          cases hfm : mcp.filterMap serverOverrideEntry with
          | nil => exact absurd hfm hne'
          | cons a t => rfl
        rw [substPaths_peel "mcp" (mcpRelPaths mcp) _ hrel
            (fun pv hpv => mem_mcpRelPaths_ne_nil hpv),
          show innerOf ([] : Obj) "mcp" = [] from rfl,
          substPaths_build_servers mcp hdmcp hh,
          show setKey ([] : Obj) "mcp" (JVal.obj (mcp.filterMap serverOverrideEntry))
            = [("mcp", JVal.obj (mcp.filterMap serverOverrideEntry))] from rfl,
          if_neg (by rw [hie]; exact Bool.false_ne_true)]
    | str s2 =>
      have e2 : configSecretPaths D = [] := by
        unfold configSecretPaths
        simp only [hm]
      have e3 : overridesTree D = [] := by
        unfold overridesTree
        simp only [hm]
      rw [e2, e3, substPaths_nil]
    | num n =>
      have e2 : configSecretPaths D = [] := by
        unfold configSecretPaths
        simp only [hm]
      have e3 : overridesTree D = [] := by
        unfold overridesTree
        simp only [hm]
      rw [e2, e3, substPaths_nil]
    | bool b =>
      have e2 : configSecretPaths D = [] := by
        unfold configSecretPaths
        simp only [hm]
      have e3 : overridesTree D = [] := by
        unfold overridesTree
        simp only [hm]
      rw [e2, e3, substPaths_nil]
    | null =>
      have e2 : configSecretPaths D = [] := by
        unfold configSecretPaths
        simp only [hm]
      have e3 : overridesTree D = [] := by
        unfold overridesTree
        simp only [hm]
      rw [e2, e3, substPaths_nil]
    | arr l2 =>
      have e2 : configSecretPaths D = [] := by
        unfold configSecretPaths
        simp only [hm]
      have e3 : overridesTree D = [] := by
        unfold overridesTree
        simp only [hm]
      rw [e2, e3, substPaths_nil]

/-! ### Round-trip: the leaf entries of the override tree are the paths -/

theorem leafEntries_serverOverride (sc : Obj) :
    leafEntries (serverOverrideObj sc) = serverRelPaths sc := by
  unfold serverOverrideObj serverRelPaths
  rw [leafEntries_append]
  congr 1
  · split
    · rename_i hs hx
      by_cases hne : headerLeafPaths hs = []
      · have hse : headerSecretEntries hs = [] := (headerSecretEntries_nil_iff hs).mpr hne
        rw [hse, hne, if_pos (show (List.isEmpty ([] : Obj)) = true from rfl)]
        rfl
      · have hie : (headerSecretEntries hs).isEmpty = false := by
          cases hoe : headerSecretEntries hs with
          | nil => exact absurd ((headerSecretEntries_nil_iff hs).mp hoe) hne
          | cons a t => rfl
        rw [if_neg (by rw [hie]; exact Bool.false_ne_true)]
        show leafOf "headers" (JVal.obj (headerSecretEntries hs)) ++ leafEntries ([] : Obj)
          = (headerLeafPaths hs).map (fun pv => ("headers" :: pv.1, pv.2))
        rw [show leafOf "headers" (JVal.obj (headerSecretEntries hs))
            = (leafEntries (headerSecretEntries hs)).map
                (fun pv => ("headers" :: pv.1, pv.2)) from rfl,
          leafEntries_headerSecretEntries hs,
          show leafEntries ([] : Obj) = [] from rfl, List.append_nil]
    · rfl
  · split
    · rename_i oa hy
      split
      · rename_i cs hz
        by_cases hsec : isSecretString cs = true
        · rw [if_pos hsec, if_pos hsec]
          obtain ⟨u, rfl⟩ := isSecretString_str hsec
          rfl
        · rw [if_neg hsec, if_neg hsec]
          rfl
      · rfl
    · rfl

theorem leafEntries_servers : ∀ l : Obj,
    leafEntries (l.filterMap serverOverrideEntry) = mcpRelPaths l
  | [] => rfl
  | (s, v) :: rest => by
    rw [show mcpRelPaths ((s, v) :: rest) = serverGroupPaths s v ++ mcpRelPaths rest from rfl]
    cases v with
    | obj sc =>
      by_cases hov : serverOverrideObj sc = []
      · have eent : serverOverrideEntry (s, JVal.obj sc) = none := by
          show (if (serverOverrideObj sc).isEmpty then none
            else some (s, JVal.obj (serverOverrideObj sc))) = none
          rw [hov]
          exact if_pos rfl
        have egrp : serverGroupPaths s (JVal.obj sc) = [] := by
          show (serverRelPaths sc).map (fun pv => (s :: pv.1, pv.2)) = []
          rw [(serverOverrideObj_nil_iff sc).mp hov]
          rfl
        rw [List.filterMap_cons, eent, egrp]
        show leafEntries (List.filterMap serverOverrideEntry rest) = [] ++ mcpRelPaths rest
        rw [leafEntries_servers rest]
        rfl
      · have hie : (serverOverrideObj sc).isEmpty = false := by
          cases hoe : serverOverrideObj sc with
          | nil => exact absurd hoe hov
          | cons a t => rfl
        have eent : serverOverrideEntry (s, JVal.obj sc)
            = some (s, JVal.obj (serverOverrideObj sc)) := by
          show (if (serverOverrideObj sc).isEmpty then none
            else some (s, JVal.obj (serverOverrideObj sc))) = _
          rw [if_neg (by rw [hie]; exact Bool.false_ne_true)]
        rw [List.filterMap_cons, eent]
        show leafOf s (JVal.obj (serverOverrideObj sc))
            ++ leafEntries (List.filterMap serverOverrideEntry rest)
          = serverGroupPaths s (JVal.obj sc) ++ mcpRelPaths rest
        rw [leafEntries_servers rest]
        congr 1
        show (leafEntries (serverOverrideObj sc)).map (fun pv => (s :: pv.1, pv.2)) = _
        rw [leafEntries_serverOverride sc]
        rfl
    | str s2 =>
      rw [show serverGroupPaths s (JVal.str s2) = [] from rfl]
      show leafEntries (List.filterMap serverOverrideEntry rest) = [] ++ mcpRelPaths rest
      rw [leafEntries_servers rest]
      rfl
    | num n =>
      rw [show serverGroupPaths s (JVal.num n) = [] from rfl]
      show leafEntries (List.filterMap serverOverrideEntry rest) = [] ++ mcpRelPaths rest
      rw [leafEntries_servers rest]
      rfl
    | bool b =>
      rw [show serverGroupPaths s (JVal.bool b) = [] from rfl]
      show leafEntries (List.filterMap serverOverrideEntry rest) = [] ++ mcpRelPaths rest
      rw [leafEntries_servers rest]
      rfl
    | null =>
      rw [show serverGroupPaths s JVal.null = [] from rfl]
      show leafEntries (List.filterMap serverOverrideEntry rest) = [] ++ mcpRelPaths rest
      rw [leafEntries_servers rest]
      rfl
    | arr l2 =>
      rw [show serverGroupPaths s (JVal.arr l2) = [] from rfl]
      show leafEntries (List.filterMap serverOverrideEntry rest) = [] ++ mcpRelPaths rest
      rw [leafEntries_servers rest]
      rfl

theorem leafEntries_overridesTree (D : Obj) :
    leafEntries (overridesTree D) = configSecretPaths D := by
  unfold overridesTree configSecretPaths
  split
  · rename_i mcp hm
    show leafEntries (if (mcp.filterMap serverOverrideEntry).isEmpty then []
        else [("mcp", JVal.obj (mcp.filterMap serverOverrideEntry))])
      = mcp.foldr (fun p acc => serverPathsValue p.1 p.2 ++ acc) []
    rw [foldr_paths_map mcp]
    by_cases hie : (mcp.filterMap serverOverrideEntry).isEmpty = true
    · rw [if_pos hie]
      have hserv : mcp.filterMap serverOverrideEntry = [] := isEmpty_eq_nil hie
      have hrel : mcpRelPaths mcp = [] := by
        rw [← leafEntries_servers mcp, hserv]
        rfl
      rw [show mcpRelPaths mcp
          = List.foldr (fun q acc => serverGroupPaths q.1 q.2 ++ acc) [] mcp from rfl] at hrel
      rw [hrel]
      rfl
    · rw [if_neg hie]
      show leafOf "mcp" (JVal.obj (mcp.filterMap serverOverrideEntry)) ++ leafEntries ([] : Obj)
        = (List.foldr (fun q acc => serverGroupPaths q.1 q.2 ++ acc) [] mcp).map
            (fun pv => ("mcp" :: pv.1, pv.2))
      rw [show leafEntries ([] : Obj) = [] from rfl, List.append_nil]
      show (leafEntries (mcp.filterMap serverOverrideEntry)).map
          (fun pv => ("mcp" :: pv.1, pv.2)) = _
      rw [leafEntries_servers mcp]
      rfl
  · rfl

/-! ### Round-trip: every inserted placeholder value matches the pattern -/

theorem envMatchHere_build_head (m b : List Char)
    (hm : m ≠ []) (hhd : ∀ c, m.head? = some c → c ≠ '\x7d') :
    envMatchHere ('\x7b' :: 'e' :: 'n' :: 'v' :: ':' :: (m ++ '\x7d' :: b)) = true := by
  obtain ⟨c0, m', rfl⟩ : ∃ c0 m', m = c0 :: m' := by
    cases m with
    | nil => exact absurd rfl hm
    | cons c0 m' => exact ⟨c0, m', rfl⟩
  have hc0 : c0 ≠ '\x7d' := hhd c0 rfl
  have hcontains : (m' ++ '\x7d' :: b).contains '\x7d' = true :=
    List.elem_eq_true_of_mem (List.mem_append_right m' (List.mem_cons_self _ _))
  simp [envMatchHere, envTailMatch, hc0, hcontains]

theorem placeholder_contains_bare (envVar : String)
    (hne : envVar.data ≠ []) (hhd : ∀ c, envVar.data.head? = some c → c ≠ '\x7d') :
    containsEnvPlaceholder (envPlaceholder envVar).data = true := by
  have hdata : (envPlaceholder envVar).data
      = '\x7b' :: 'e' :: 'n' :: 'v' :: ':' :: (envVar.data ++ '\x7d' :: []) := by
    unfold envPlaceholder
    rw [String.data_append, String.data_append, List.append_assoc]
    rfl
  rw [hdata, containsEnvPlaceholder, envMatchHere_build_head envVar.data [] hne hhd]
  rfl

theorem placeholder_contains_pre (pre envVar : String)
    (hne : envVar.data ≠ []) (hhd : ∀ c, envVar.data.head? = some c → c ≠ '\x7d') :
    containsEnvPlaceholder ((pre ++ envPlaceholder envVar).data) = true := by
  rw [String.data_append]
  exact containsEnv_append_right pre.data (placeholder_contains_bare envVar hne hhd)

theorem head_mem {l : List Char} {c : Char} (h : l.head? = some c) : c ∈ l := by
  cases l with
  | nil => simp at h
  | cons a t =>
    simp only [List.head?_cons, Option.some.injEq] at h
    subst h
    exact List.mem_cons_self _ _

theorem isEmpty_false_data_ne {s : String} (h : s.isEmpty = false) : s.data ≠ [] := by
  intro hd
  have he : s = "" := by
    cases s
    simp at hd
    simp [hd]
  subst he
  simp [String.isEmpty] at h

theorem upperEnvChar_ne_brace {c : Char} (h : isUpperEnvChar c = true) : c ≠ '\x7d' := by
  intro he
  subst he
  exact absurd h (by decide)

theorem buildEnvVar_data (serverName key : String) :
    ∃ t, (buildEnvVar serverName key).data = 'O' :: t := by
  unfold buildEnvVar
  rw [String.data_append, String.data_append, String.data_append]
  rw [show ("OPENCODE_MCP_" : String).data = 'O' :: "PENCODE_MCP_".data from rfl]
  rw [List.cons_append, List.cons_append, List.cons_append]
  exact ⟨_, rfl⟩

theorem buildEnvVar_head (serverName key : String) :
    (buildEnvVar serverName key).data ≠ [] ∧
    ∀ c, (buildEnvVar serverName key).data.head? = some c → c ≠ '\x7d' := by
  obtain ⟨t, ht⟩ := buildEnvVar_data serverName key
  rw [ht]
  refine ⟨by simp, ?_⟩
  intro c hc
  simp only [List.head?_cons, Option.some.injEq] at hc
  subst hc
  decide

theorem buildHeaderEnvVar_head (serverName headerName : String) :
    (buildHeaderEnvVar serverName headerName).data ≠ [] ∧
    ∀ c, (buildHeaderEnvVar serverName headerName).data.head? = some c → c ≠ '\x7d' := by
  unfold buildHeaderEnvVar
  split
  · rename_i hmup
    unfold matchesUpperEnvName at hmup
    simp only [Bool.and_eq_true, Bool.not_eq_true'] at hmup
    obtain ⟨hne, hall⟩ := hmup
    refine ⟨isEmpty_false_data_ne hne, ?_⟩
    intro c hc
    exact upperEnvChar_ne_brace (List.all_eq_true.mp hall c (head_mem hc))
  · exact buildEnvVar_head serverName headerName

theorem buildHeaderPlaceholder_contains (value envVar headerName : String)
    (hne : envVar.data ≠ []) (hhd : ∀ c, envVar.data.head? = some c → c ≠ '\x7d') :
    containsEnvPlaceholder (buildHeaderPlaceholder value envVar headerName).data = true := by
  unfold buildHeaderPlaceholder
  split
  · exact placeholder_contains_bare envVar hne hhd
  · split
    · rename_i pre hsm
      exact placeholder_contains_pre (String.mk pre) envVar hne hhd
    · exact placeholder_contains_bare envVar hne hhd

/-! ### Round-trip: walking the secret paths in both documents -/

theorem lookupPath_step {o i : Obj} {k : String} (k2 : String) (rest : List String)
    (h : lookupKey o k = some (JVal.obj i)) :
    lookupPath o (k :: k2 :: rest) = lookupPath i (k2 :: rest) := by
  show (match lookupKey o k with
        | some (JVal.obj inner) => lookupPath inner (k2 :: rest)
        | _ => none) = lookupPath i (k2 :: rest)
  rw [h]

theorem original_at_path (D : Obj) (hwf : wfConfig D = true) :
    ∀ pv ∈ configSecretPaths D, lookupPath D pv.1 = some pv.2 := by
  intro pv hpv
  obtain ⟨mcp, hm, q, hq, hspv⟩ := mem_configSecretPaths.mp hpv
  obtain ⟨hdD, hdmcp⟩ := wfConfig_root hwf hm
  obtain ⟨q1, q2⟩ := q
  cases q2 with
  | obj sc =>
    have hwfs := wfConfig_server hwf hm hq
    have hlq : lookupKey mcp q1 = some (JVal.obj sc) := lookupKey_of_mem_distinct hdmcp hq
    have hsrv : pv ∈ serverSecretPaths q1 sc := hspv
    rcases mem_serverSecretPaths.mp hsrv with
      ⟨hs, h, v, hx, hmemh, hsec, rfl⟩ | ⟨oa, cs, hy, hz, hsec, rfl⟩
    · have hdhs : distinctKeysObj hs = true := hwfs.2.1 hs hx
      have hlh : lookupKey hs h = some v := lookupKey_of_mem_distinct hdhs hmemh
      show lookupPath D ["mcp", q1, "headers", h] = some v
      rw [lookupPath_step q1 ["headers", h] hm, lookupPath_step "headers" [h] hlq,
        lookupPath_step h [] hx]
      exact hlh
    · show lookupPath D ["mcp", q1, "oauth", "clientSecret"] = some cs
      rw [lookupPath_step q1 ["oauth", "clientSecret"] hm,
        lookupPath_step "oauth" ["clientSecret"] hlq,
        lookupPath_step "clientSecret" [] hy]
      exact hz
  | str s2 => simp [serverPathsValue] at hspv
  | num n => simp [serverPathsValue] at hspv
  | bool b => simp [serverPathsValue] at hspv
  | null => simp [serverPathsValue] at hspv
  | arr l2 => simp [serverPathsValue] at hspv

theorem sanitized_placeholder (D : Obj) (hwf : wfConfig D = true) :
    ∀ pv ∈ configSecretPaths D, ∃ t : String,
      lookupPath (sanitizeConfig D) pv.1 = some (JVal.str t) ∧
      containsEnvPlaceholder t.data = true := by
  intro pv hpv
  obtain ⟨mcp, hm, q, hq, hspv⟩ := mem_configSecretPaths.mp hpv
  obtain ⟨hdD, hdmcp⟩ := wfConfig_root hwf hm
  obtain ⟨q1, q2⟩ := q
  cases q2 with
  | obj sc =>
    have hwfs := wfConfig_server hwf hm hq
    have hlq : lookupKey mcp q1 = some (JVal.obj sc) := lookupKey_of_mem_distinct hdmcp hq
    have e1 : sanitizeConfig D
        = setKey D "mcp" (JVal.obj (mcp.map (fun q => (q.1, sanitizeServerValue q.1 q.2)))) := by
      unfold sanitizeConfig
      simp only [hm]
    have estep1 : lookupKey (sanitizeConfig D) "mcp"
        = some (JVal.obj (mcp.map (fun q => (q.1, sanitizeServerValue q.1 q.2)))) := by
      rw [e1, lookupKey_setKey_self]
    have estep2 : lookupKey (mcp.map (fun q => (q.1, sanitizeServerValue q.1 q.2))) q1
        = some (JVal.obj (sanitizeServer q1 sc)) := by
      rw [lookupKey_map_entry, hlq]
      rfl
    have hsrv : pv ∈ serverSecretPaths q1 sc := hspv
    rcases mem_serverSecretPaths.mp hsrv with
      ⟨hs, h, v, hx, hmemh, hsec, rfl⟩ | ⟨oa, cs, hy, hz, hsec, rfl⟩
    · have hdhs : distinctKeysObj hs = true := hwfs.2.1 hs hx
      have hlh : lookupKey hs h = some v := lookupKey_of_mem_distinct hdhs hmemh
      obtain ⟨u, rfl⟩ := isSecretString_str hsec
      have estep3 : lookupKey (sanitizeServer q1 sc) "headers"
          = some (JVal.obj (sanitizeHeaders q1 hs)) := by
        rw [lookupKey_sanitizeServer_headers, hx]
      have estep4 : lookupKey (sanitizeHeaders q1 hs) h
          = some (JVal.str (buildHeaderPlaceholder u (buildHeaderEnvVar q1 h) h)) := by
        unfold sanitizeHeaders
        rw [lookupKey_map_entry, hlh]
        show some (if isSecretString (JVal.str u) = true
            then JVal.str (buildHeaderPlaceholder u (buildHeaderEnvVar q1 h) h)
            else JVal.str u) = _
        rw [if_pos hsec]
      refine ⟨buildHeaderPlaceholder u (buildHeaderEnvVar q1 h) h, ?_, ?_⟩
      · show lookupPath (sanitizeConfig D) ["mcp", q1, "headers", h] = _
        rw [lookupPath_step q1 ["headers", h] estep1,
          lookupPath_step "headers" [h] estep2,
          lookupPath_step h [] estep3]
        exact estep4
      · obtain ⟨hvne, hvhd⟩ := buildHeaderEnvVar_head q1 h
        exact buildHeaderPlaceholder_contains u (buildHeaderEnvVar q1 h) h hvne hvhd
    · have estep3 : lookupKey (sanitizeServer q1 sc) "oauth"
          = some (JVal.obj (setKey oa "clientSecret"
              (JVal.str (envPlaceholder (buildEnvVar q1 "OAUTH_CLIENT_SECRET"))))) := by
        rw [lookupKey_sanitizeServer_oauth, hy]
        show (match lookupKey oa "clientSecret" with
              | some cs =>
                if isSecretString cs then
                  some (JVal.obj (setKey oa "clientSecret"
                    (JVal.str (envPlaceholder (buildEnvVar q1 "OAUTH_CLIENT_SECRET")))))
                else some (JVal.obj oa)
              | none => some (JVal.obj oa)) = _
        rw [hz]
        show (if isSecretString cs then
              some (JVal.obj (setKey oa "clientSecret"
                (JVal.str (envPlaceholder (buildEnvVar q1 "OAUTH_CLIENT_SECRET")))))
            else some (JVal.obj oa)) = _
        rw [if_pos hsec]
      have estep4 : lookupKey (setKey oa "clientSecret"
            (JVal.str (envPlaceholder (buildEnvVar q1 "OAUTH_CLIENT_SECRET")))) "clientSecret"
          = some (JVal.str (envPlaceholder (buildEnvVar q1 "OAUTH_CLIENT_SECRET"))) :=
        lookupKey_setKey_self oa "clientSecret" _
      refine ⟨envPlaceholder (buildEnvVar q1 "OAUTH_CLIENT_SECRET"), ?_, ?_⟩
      · show lookupPath (sanitizeConfig D) ["mcp", q1, "oauth", "clientSecret"] = _
        rw [lookupPath_step q1 ["oauth", "clientSecret"] estep1,
          lookupPath_step "oauth" ["clientSecret"] estep2,
          lookupPath_step "clientSecret" [] estep3]
        exact estep4
      · obtain ⟨hvne, hvhd⟩ := buildEnvVar_head q1 "OAUTH_CLIENT_SECRET"
        exact placeholder_contains_bare (buildEnvVar q1 "OAUTH_CLIENT_SECRET") hvne hvhd
  | str s2 => simp [serverPathsValue] at hspv
  | num n => simp [serverPathsValue] at hspv
  | bool b => simp [serverPathsValue] at hspv
  | null => simp [serverPathsValue] at hspv
  | arr l2 => simp [serverPathsValue] at hspv

/-- Claim C1: round-trip complementarity of `extractMcpSecrets`.  On any
well-formed document, (1) substituting every override entry of the
recorded tree back into the sanitized config at its path reconstructs the
original document exactly; (2) the override tree's leaf entries are
exactly the recorded secret paths with the original values — one entry per
secret header or oauth client secret and none anywhere else; (3) at each
such path the sanitized config holds a string containing an `\x7benv:...\x7d`
placeholder, while the original document holds the recorded original
value. -/
theorem claim1_round_trip (D : Obj) (hwf : wfConfig D = true) :
    substPaths (extractMcpSecrets D).1 (leafEntries (extractMcpSecrets D).2) = D ∧
    leafEntries (extractMcpSecrets D).2 = configSecretPaths D ∧
    ∀ pv ∈ configSecretPaths D, ∃ t : String,
      lookupPath (extractMcpSecrets D).1 pv.1 = some (JVal.str t) ∧
      containsEnvPlaceholder t.data = true ∧
      lookupPath D pv.1 = some pv.2 := by
  have h2 : leafEntries (extractMcpSecrets D).2 = configSecretPaths D := by
    show leafEntries (substPaths [] (configSecretPaths D)) = configSecretPaths D
    rw [overrides_eq_tree D hwf, leafEntries_overridesTree D]
  refine ⟨?_, h2, ?_⟩
  · rw [h2]
    exact substPaths_restore_config D hwf
  · intro pv hpv
    obtain ⟨t, h1, hc⟩ := sanitized_placeholder D hwf pv hpv
    exact ⟨t, h1, hc, original_at_path D hwf pv hpv⟩

theorem claim1_round_trip_witness :
    wfConfig sampleDoc = true ∧
    substPaths (extractMcpSecrets sampleDoc).1 (leafEntries (extractMcpSecrets sampleDoc).2)
      = sampleDoc :=
  ⟨rfl, (claim1_round_trip sampleDoc rfl).1⟩

end McpSync
